import Mathlib

/-!
Verification development for the northroot trust kernel.

The definitions below are a shallow embedding of the Rust sources:
quantity comparison and meter-bounds checking from
`src/wip/agent-domain/verification.rs`, event-id computation from
`src/crates/northroot-core/src/event_id.rs`, the journal frame
reader and writer from `src/crates/northroot-journal`, the
journal-level convenience verifier from
`src/crates/northroot-journal/src/verification.rs`, and the event
filters from `src/crates/northroot-store/src/filter.rs`.
Strings of the Rust code are modelled as `String` or `List Char`
(one `Char` per byte; all relevant data is ASCII), machine integers
as `Nat`/`Int` with explicit range conditions, and fallible code as
`Option`/`Except`.
-/

namespace Northroot

/-- Three-way comparison on `Nat`, mirroring Rust `usize::cmp`. -/
def cmpNat (a b : Nat) : Ordering :=
  if a < b then .lt else if a = b then .eq else .gt

/-- Three-way comparison on `Int`, mirroring Rust `i32::cmp` / `i128::cmp`. -/
def cmpInt (a b : Int) : Ordering :=
  if a < b then .lt else if a = b then .eq else .gt

/-- Byte-wise lexicographic comparison of character lists, mirroring Rust
`str::cmp` on the ASCII strings handled by the comparator. -/
def lexCompare : List Char → List Char → Ordering
  | [], [] => .eq
  | [], _ :: _ => .lt
  | _ :: _, [] => .gt
  | a :: as, b :: bs =>
    match cmpNat a.toNat b.toNat with
    | .eq => lexCompare as bs
    | o => o

/-- Sign stripping of `Verifier::cmp_int_strings`: `strip_prefix` of a minus
sign yields sign `-1` and the rest, otherwise sign `1` and the whole string. -/
def stripNeg : List Char → Int × List Char
  | c :: rest => if c = '-' then (-1, rest) else (1, c :: rest)
  | [] => (1, [])

/-- Embedding of `Verifier::cmp_int_strings`
(src/wip/agent-domain/verification.rs, lines 210-251): handle the
`"0"`/`"0"` case, compare signs, then absolute lengths, then
lexicographically; reverse the result for negative signs. -/
def cmpIntStrings (a b : List Char) : Option Ordering :=
  if a = ['0'] ∧ b = ['0'] then some .eq
  else
    let sa := stripNeg a
    let sb := stripNeg b
    match cmpInt sa.1 sb.1 with
    | .lt => some .lt
    | .gt => some .gt
    | .eq =>
      let absCmp :=
        match cmpNat sa.2.length sb.2.length with
        | .lt => Ordering.lt
        | .gt => Ordering.gt
        | .eq => lexCompare sa.2 sb.2
      if sa.1 < 0 then some absCmp.swap else some absCmp

/-- Embedding of `Verifier::normalize_dec_scale`: refuse truncation, pad the
mantissa with zeros on the right to reach the target scale. -/
def normalizeDecScale (m : List Char) (fromScale toScale : Nat) :
    Option (List Char) :=
  if toScale < fromScale then none
  else if toScale = fromScale then some m
  else some (m ++ List.replicate (toScale - fromScale) '0')

/-- Embedding of `Verifier::cmp_dec` (verification.rs, lines 254-268):
normalize both mantissas to the maximum scale, then compare them with
`cmp_int_strings`. -/
def cmpDec (um : List Char) (us : Nat) (cm : List Char) (cs : Nat) :
    Option Ordering := do
  let maxScale := max us cs
  let un ← normalizeDecScale um us maxScale
  let cn ← normalizeDecScale cm cs maxScale
  cmpIntStrings un cn

/-- Lower bound of Rust `i128`. -/
def i128Min : Int := -(2 ^ 127)

/-- Upper bound of Rust `i128`. -/
def i128Max : Int := 2 ^ 127 - 1

/-- Character predicate for ASCII decimal digits. -/
def isDigitChar (c : Char) : Bool := 48 ≤ c.toNat && c.toNat ≤ 57

/-- Numeric value of a digit character. -/
def digitVal (c : Char) : Nat := c.toNat - 48

/-- Value of a digit string, most significant digit first. -/
def digitsVal (ds : List Char) : Nat :=
  ds.foldl (fun acc c => acc * 10 + digitVal c) 0

/-- Parses a nonempty all-digit string to its value, as the digit part of
Rust integer parsing does. -/
def parseDigits (ds : List Char) : Option Nat :=
  if ds ≠ [] ∧ ds.all isDigitChar then some (digitsVal ds) else none

/-- Model of Rust `str::parse::<i128>`: optional sign, nonempty digit run,
and a range check against the `i128` bounds. -/
def parseI128 (s : List Char) : Option Int :=
  match s with
  | c :: rest =>
    if c = '+' then
      (parseDigits rest).bind fun v =>
        if (v : Int) ≤ i128Max then some (v : Int) else none
    else if c = '-' then
      (parseDigits rest).bind fun v =>
        if i128Min ≤ -(v : Int) then some (-(v : Int)) else none
    else
      (parseDigits (c :: rest)).bind fun v =>
        if (v : Int) ≤ i128Max then some (v : Int) else none
  | [] => none

/-- Model of Rust `i128::checked_mul`: the product, provided it stays within
the `i128` range. -/
def checkedMulI128 (a b : Int) : Option Int :=
  if i128Min ≤ a * b ∧ a * b ≤ i128Max then some (a * b) else none

/-- Embedding of `Verifier::cmp_rat` (verification.rs, lines 291-318):
parse the four components as `i128`, cross-multiply with `checked_mul`,
and compare; any parse failure or overflow yields `none`. -/
def cmpRat (un ud cn cd : List Char) : Option Ordering :=
  match parseI128 un, parseI128 ud, parseI128 cn, parseI128 cd with
  | some uni, some udi, some cni, some cdi =>
    (checkedMulI128 uni cdi).bind fun left =>
      (checkedMulI128 cni udi).bind fun right => some (cmpInt left right)
  | _, _, _, _ => none

/-- The quantity union of `northroot_canonical::Quantity`
(src/crates/northroot-canonical/src/quantities.rs). -/
inductive Quantity where
  | int (v : String)
  | dec (m : String) (s : Nat)
  | rat (n d : String)
  | f64 (bits : String)
deriving DecidableEq

/-- Comparison result of the verifier
(src/wip/agent-domain/verification.rs, `ComparisonResult`). -/
inductive ComparisonResult where
  | withinBounds
  | exceedsBounds
  | invalid
deriving DecidableEq

/-- Mapping from an optional ordering to a comparison result, as each arm of
`Verifier::compare_quantities` does: `Less`/`Equal` are within bounds,
`Greater` exceeds, `None` is invalid. -/
def ordToResult : Option Ordering → ComparisonResult
  | some .lt => .withinBounds
  | some .eq => .withinBounds
  | some .gt => .exceedsBounds
  | none => .invalid

/-- Embedding of `Verifier::compare_quantities`
(verification.rs, lines 153-207): same-kind comparison dispatch, bitwise
equality for `f64`, and `Invalid` for every mixed-kind pair. -/
def compareQuantities (used cap : Quantity) : ComparisonResult :=
  match used, cap with
  | .int uv, .int cv => ordToResult (cmpIntStrings uv.data cv.data)
  | .dec um us, .dec cm cs => ordToResult (cmpDec um.data us cm.data cs)
  | .rat un ud, .rat cn cd =>
    ordToResult (cmpRat un.data ud.data cn.data cd.data)
  | .f64 ub, .f64 cb =>
    if ub = cb then .withinBounds else .invalid
  | _, _ => .invalid

/-- A nonzero leading digit followed by digits: the regex
`[1-9][0-9]*` shared by the validators in quantities.rs. -/
def nonzeroLeadDigits : List Char → Bool
  | c :: cs => (49 ≤ c.toNat && c.toNat ≤ 57) && cs.all isDigitChar
  | [] => false

/-- Embedding of `is_valid_integer` (quantities.rs, lines 115-124), stated
via `stripNeg`: `"0"`, or an optional minus sign followed by a nonzero
leading digit and digits; `"-0"` is invalid. -/
def isValidInteger (s : List Char) : Bool :=
  s = ['0'] || nonzeroLeadDigits (stripNeg s).2

/-- Embedding of `is_valid_positive_integer` (quantities.rs, lines 126-129):
a nonzero leading digit followed by digits. -/
def isValidPositiveInteger (s : List Char) : Bool :=
  nonzeroLeadDigits s

/-- Validity of a quantity, as enforced by the `Quantity` constructors in
quantities.rs: minimal integer strings, scales at most 18, positive
denominators. The `f64` charset constraint is irrelevant to comparison
and is not repeated here. -/
def validQuantity : Quantity → Bool
  | .int v => isValidInteger v.data
  | .dec m s => isValidInteger m.data && s ≤ 18
  | .rat n d => isValidInteger n.data && isValidPositiveInteger d.data
  | .f64 _ => true

/-- Signed value denoted by an integer string: the sign times the value of
the digit part. -/
def strVal (s : List Char) : Int :=
  (stripNeg s).1 * (digitsVal (stripNeg s).2 : Int)

end Northroot

namespace Northroot

/-- Sign-and-magnitude key of an integer string: the comparator of
`cmp_int_strings` orders strings exactly as the lexicographic order of
this triple (sign, signed length, signed digit value). -/
def mkey (s : List Char) : Int × Int × Int :=
  let p := stripNeg s
  (p.1, p.1 * p.2.length, p.1 * (digitsVal p.2 : Int))

/-- Lexicographic three-way comparison of integer triples. -/
def cmp3 (a b : Int × Int × Int) : Ordering :=
  match cmpInt a.1 b.1 with
  | .eq =>
    match cmpInt a.2.1 b.2.1 with
    | .eq => cmpInt a.2.2 b.2.2
    | o => o
  | o => o

theorem cmpInt_eq_lt {a b : Int} : cmpInt a b = .lt ↔ a < b := by
  unfold cmpInt
  by_cases h1 : a < b
  · simp [h1]
  · by_cases h2 : a = b <;> simp [h1, h2]

theorem cmpInt_eq_eq {a b : Int} : cmpInt a b = .eq ↔ a = b := by
  unfold cmpInt
  by_cases h1 : a < b
  · simp [h1]; omega
  · by_cases h2 : a = b <;> simp [h1, h2]

theorem cmpInt_eq_gt {a b : Int} : cmpInt a b = .gt ↔ b < a := by
  unfold cmpInt
  by_cases h1 : a < b
  · simp [h1]; omega
  · by_cases h2 : a = b <;> simp [h1, h2] <;> omega

theorem cmpNat_eq_lt {a b : Nat} : cmpNat a b = .lt ↔ a < b := by
  unfold cmpNat
  by_cases h1 : a < b
  · simp [h1]
  · by_cases h2 : a = b <;> simp [h1, h2]

theorem cmpNat_eq_eq {a b : Nat} : cmpNat a b = .eq ↔ a = b := by
  unfold cmpNat
  by_cases h1 : a < b
  · simp [h1]; omega
  · by_cases h2 : a = b <;> simp [h1, h2]

theorem cmpNat_eq_gt {a b : Nat} : cmpNat a b = .gt ↔ b < a := by
  unfold cmpNat
  by_cases h1 : a < b
  · simp [h1]; omega
  · by_cases h2 : a = b <;> simp [h1, h2] <;> omega

theorem cmpNat_swap (a b : Nat) : cmpNat a b = (cmpNat b a).swap := by
  unfold cmpNat
  rcases Nat.lt_trichotomy a b with h | h | h
  · have h1 : ¬ b < a := by omega
    have h2 : ¬ b = a := by omega
    simp [h, h1, h2, Ordering.swap]
  · subst h
    simp [Nat.lt_irrefl, Ordering.swap]
  · have h1 : ¬ a < b := by omega
    have h2 : ¬ a = b := by omega
    simp [h, h1, h2, Ordering.swap]

theorem cmpInt_swap (a b : Int) : cmpInt a b = (cmpInt b a).swap := by
  unfold cmpInt
  rcases lt_trichotomy a b with h | h | h
  · have h1 : ¬ b < a := by omega
    have h2 : ¬ b = a := by omega
    simp [h, h1, h2, Ordering.swap]
  · subst h
    simp [Int.lt_irrefl, Ordering.swap]
  · have h1 : ¬ a < b := by omega
    have h2 : ¬ a = b := by omega
    simp [h, h1, h2, Ordering.swap]

theorem lexCompare_swap (a b : List Char) :
    lexCompare a b = (lexCompare b a).swap := by
  induction a generalizing b with
  | nil => cases b <;> simp [lexCompare, Ordering.swap]
  | cons x xs ih =>
    cases b with
    | nil => simp [lexCompare, Ordering.swap]
    | cons y ys =>
      simp only [lexCompare]
      rw [cmpNat_swap x.toNat y.toNat]
      rcases h : cmpNat y.toNat x.toNat <;> simp [Ordering.swap, ih ys]

end Northroot

namespace Northroot

theorem digitsVal_foldl (acc : Nat) (ds : List Char) :
    ds.foldl (fun a c => a * 10 + digitVal c) acc
      = acc * 10 ^ ds.length + digitsVal ds := by
  induction ds generalizing acc with
  | nil => simp [digitsVal]
  | cons c cs ih =>
    have hx : digitsVal (c :: cs) = digitVal c * 10 ^ cs.length + digitsVal cs := by
      show (c :: cs).foldl (fun a c => a * 10 + digitVal c) 0 = _
      simp only [List.foldl_cons]
      rw [ih (0 * 10 + digitVal c)]
      ring
    simp only [List.foldl_cons]
    rw [ih (acc * 10 + digitVal c), hx]
    simp [List.length_cons]
    ring

theorem digitsVal_cons (c : Char) (cs : List Char) :
    digitsVal (c :: cs) = digitVal c * 10 ^ cs.length + digitsVal cs := by
  show (c :: cs).foldl (fun a c => a * 10 + digitVal c) 0 = _
  simp only [List.foldl_cons]
  rw [digitsVal_foldl (0 * 10 + digitVal c)]
  ring

theorem digitsVal_lt (ds : List Char) (h : ds.all isDigitChar = true) :
    digitsVal ds < 10 ^ ds.length := by
  induction ds with
  | nil => simp [digitsVal]
  | cons c cs ih =>
    have hc : isDigitChar c = true ∧ cs.all isDigitChar = true := by
      simpa using h
    have hdv : digitVal c ≤ 9 := by
      have := hc.1
      simp [isDigitChar] at this
      unfold digitVal
      omega
    have hrest := ih hc.2
    have hmul : digitVal c * 10 ^ cs.length ≤ 9 * 10 ^ cs.length :=
      Nat.mul_le_mul_right _ hdv
    rw [digitsVal_cons, List.length_cons, pow_succ]
    omega

theorem cmpNat_add_left (k a b : Nat) : cmpNat (k + a) (k + b) = cmpNat a b := by
  unfold cmpNat
  rcases Nat.lt_trichotomy a b with h | h | h
  · have h1 : k + a < k + b := by omega
    simp [h, h1]
  · subst h
    simp
  · have h1 : ¬ (k + a < k + b) := by omega
    have h2 : ¬ (k + a = k + b) := by omega
    have h3 : ¬ (a < b) := by omega
    have h4 : ¬ (a = b) := by omega
    simp [h1, h2, h3, h4]

/-- On equal-length digit strings, lexicographic comparison agrees with
comparison of the denoted values. -/
theorem lexCompare_digits (a : List Char) : ∀ b : List Char,
    a.length = b.length → a.all isDigitChar = true → b.all isDigitChar = true →
    lexCompare a b = cmpNat (digitsVal a) (digitsVal b) := by
  induction a with
  | nil =>
    intro b hlen _ _
    cases b with
    | nil => simp [lexCompare, digitsVal, cmpNat]
    | cons y ys => simp at hlen
  | cons x xs ih =>
    intro b hlen ha hb
    cases b with
    | nil => simp at hlen
    | cons y ys =>
      have hx : isDigitChar x = true ∧ xs.all isDigitChar = true := by simpa using ha
      have hy : isDigitChar y = true ∧ ys.all isDigitChar = true := by simpa using hb
      have hlen2 : xs.length = ys.length := by simpa using hlen
      have hxd : 48 ≤ x.toNat ∧ x.toNat ≤ 57 := by
        have := hx.1; simp [isDigitChar] at this; omega
      have hyd : 48 ≤ y.toNat ∧ y.toNat ≤ 57 := by
        have := hy.1; simp [isDigitChar] at this; omega
      have hvx := digitsVal_lt xs hx.2
      have hvy := digitsVal_lt ys hy.2
      simp only [lexCompare]
      rcases h : cmpNat x.toNat y.toNat with _ | _ | _
      · rw [cmpNat_eq_lt] at h
        have hdv : digitVal x < digitVal y := by unfold digitVal; omega
        symm
        rw [cmpNat_eq_lt, digitsVal_cons, digitsVal_cons, hlen2]
        have hmul : (digitVal x + 1) * 10 ^ ys.length ≤ digitVal y * 10 ^ ys.length :=
          Nat.mul_le_mul_right _ (by omega)
        have hx10 : digitsVal xs < 10 ^ ys.length := by rw [← hlen2]; exact hvx
        nlinarith [hx10, hmul]
      · rw [cmpNat_eq_eq] at h
        have hdv : digitVal x = digitVal y := by unfold digitVal; omega
        rw [digitsVal_cons, digitsVal_cons, hlen2, hdv, cmpNat_add_left]
        exact ih ys hlen2 hx.2 hy.2
      · rw [cmpNat_eq_gt] at h
        have hdv : digitVal y < digitVal x := by unfold digitVal; omega
        symm
        rw [cmpNat_eq_gt, digitsVal_cons, digitsVal_cons, hlen2]
        have hmul : (digitVal y + 1) * 10 ^ ys.length ≤ digitVal x * 10 ^ ys.length :=
          Nat.mul_le_mul_right _ (by omega)
        nlinarith [hvy, hmul]

end Northroot

namespace Northroot

theorem stripNeg_sign (s : List Char) :
    (stripNeg s).1 = 1 ∨ (stripNeg s).1 = -1 := by
  cases s with
  | nil => simp [stripNeg]
  | cons c t => by_cases hc : c = '-' <;> simp [stripNeg, hc]

theorem cmpInt_natCast (a b : Nat) : cmpInt (a : Int) (b : Int) = cmpNat a b := by
  unfold cmpInt cmpNat
  rcases Nat.lt_trichotomy a b with h | h | h
  · have h1 : (a : Int) < (b : Int) := by omega
    simp [h, h1]
  · subst h
    simp
  · have h1 : ¬ ((a : Int) < (b : Int)) := by omega
    have h2 : ¬ ((a : Int) = (b : Int)) := by omega
    have h3 : ¬ a < b := by omega
    have h4 : ¬ a = b := by omega
    simp [h1, h2, h3, h4]

theorem cmpInt_neg_neg (a b : Int) : cmpInt (-a) (-b) = (cmpInt a b).swap := by
  unfold cmpInt
  rcases lt_trichotomy a b with h | h | h
  · have h1 : ¬ (-a < -b) := by omega
    have h2 : ¬ (-a = -b) := by omega
    simp [h, h1, h2, Ordering.swap]
  · subst h
    simp [Int.lt_irrefl, Ordering.swap]
  · have h1 : -a < -b := by omega
    have h2 : ¬ (a < b) := by omega
    have h3 : ¬ (a = b) := by omega
    simp [h1, h2, h3, Ordering.swap]

/-- The comparator of `cmp_int_strings` computes exactly the lexicographic
comparison of the sign-length-value keys, on strings whose unsigned part
consists of digits. -/
theorem cmpIntStrings_eq_cmp3 (a b : List Char)
    (ha : ((stripNeg a).2).all isDigitChar = true)
    (hb : ((stripNeg b).2).all isDigitChar = true) :
    cmpIntStrings a b = some (cmp3 (mkey a) (mkey b)) := by
  by_cases h0 : a = ['0'] ∧ b = ['0']
  · rcases h0 with ⟨rfl, rfl⟩
    decide
  · simp only [cmpIntStrings, if_neg h0, mkey, cmp3]
    rcases h1 : cmpInt (stripNeg a).1 (stripNeg b).1 with _ | _ | _
    · simp [h1]
    · have hsign : (stripNeg a).1 = (stripNeg b).1 := cmpInt_eq_eq.mp h1
      rcases stripNeg_sign a with hpos | hneg
      · have hposb : (stripNeg b).1 = 1 := by rw [← hsign]; exact hpos
        rw [hpos] at hsign ⊢
        rw [hposb]
        simp only [one_mul, h1, cmpInt_natCast]
        have hif : ¬ ((1 : Int) < 0) := by omega
        rw [if_neg hif]
        rcases h2 : cmpNat (stripNeg a).2.length (stripNeg b).2.length with _ | _ | _
        · simp [hpos, hposb, h1, cmpInt_eq_eq.mpr rfl]
        · have hlen : (stripNeg a).2.length = (stripNeg b).2.length :=
            cmpNat_eq_eq.mp h2
          rw [lexCompare_digits _ _ hlen ha hb]
        · rfl
      · have hnegb : (stripNeg b).1 = -1 := by rw [← hsign]; exact hneg
        rw [hneg] at hsign ⊢
        rw [hnegb]
        have hm : ∀ x : Nat, (-1 : Int) * (x : Int) = -(x : Int) := by intro x; ring
        simp only [hm, h1, cmpInt_neg_neg, cmpInt_natCast]
        have hif : ((-1 : Int) < 0) := by omega
        rw [if_pos hif]
        rcases h2 : cmpNat (stripNeg a).2.length (stripNeg b).2.length with _ | _ | _
        · rfl
        · have hlen : (stripNeg a).2.length = (stripNeg b).2.length :=
            cmpNat_eq_eq.mp h2
          rw [lexCompare_digits _ _ hlen ha hb]
          rfl
        · rfl
    · simp [h1]

end Northroot

namespace Northroot

theorem stripNeg_append_zeros (s : List Char) (k : Nat) :
    stripNeg (s ++ List.replicate k '0')
      = ((stripNeg s).1, (stripNeg s).2 ++ List.replicate k '0') := by
  cases s with
  | nil =>
    cases k with
    | zero => simp [stripNeg]
    | succ n => simp [stripNeg, List.replicate_succ]
  | cons c t => by_cases hc : c = '-' <;> simp [stripNeg, hc]

theorem digitsVal_append_zeros (ds : List Char) (k : Nat) :
    digitsVal (ds ++ List.replicate k '0') = digitsVal ds * 10 ^ k := by
  induction k with
  | zero => simp [digitsVal]
  | succ n ih =>
    rw [List.replicate_succ', ← List.append_assoc]
    have hsingle : ∀ xs : List Char,
        digitsVal (xs ++ ['0']) = digitsVal xs * 10 := by
      intro xs
      unfold digitsVal
      rw [List.foldl_append]
      simp [digitVal]
    rw [hsingle, ih]
    ring

theorem zeros_all_digits (k : Nat) :
    (List.replicate k '0').all isDigitChar = true := by
  induction k with
  | zero => simp
  | succ n ih => simp [List.replicate_succ, ih, isDigitChar]

theorem cmpInt_sign_add (sg x y c : Int) (hsg : sg = 1 ∨ sg = -1) :
    cmpInt (sg * (x + c)) (sg * (y + c)) = cmpInt (sg * x) (sg * y) := by
  unfold cmpInt
  rcases hsg with rfl | rfl <;> split_ifs <;> first | rfl | omega

theorem cmpInt_sign_mul_pow (sg x y : Int) (k : Nat) (hsg : sg = 1 ∨ sg = -1) :
    cmpInt (sg * (x * 10 ^ k)) (sg * (y * 10 ^ k)) = cmpInt (sg * x) (sg * y) := by
  have hp : (0 : Int) < 10 ^ k := by positivity
  unfold cmpInt
  rcases hsg with rfl | rfl <;> rcases lt_trichotomy x y with h | h | h
  · have h0 : x * 10 ^ k < y * 10 ^ k := mul_lt_mul_of_pos_right h hp
    split_ifs <;> first | rfl | omega
  · subst h
    split_ifs <;> first | rfl | omega
  · have h0 : y * 10 ^ k < x * 10 ^ k := mul_lt_mul_of_pos_right h hp
    split_ifs <;> first | rfl | omega
  · have h0 : x * 10 ^ k < y * 10 ^ k := mul_lt_mul_of_pos_right h hp
    split_ifs <;> first | rfl | omega
  · subst h
    split_ifs <;> first | rfl | omega
  · have h0 : y * 10 ^ k < x * 10 ^ k := mul_lt_mul_of_pos_right h hp
    split_ifs <;> first | rfl | omega

/-- Appending the same number of zeros to both operands does not change the
key comparison. -/
theorem cmp3_mkey_shift (a b : List Char) (k : Nat) :
    cmp3 (mkey (a ++ List.replicate k '0')) (mkey (b ++ List.replicate k '0'))
      = cmp3 (mkey a) (mkey b) := by
  have hsa := stripNeg_sign a
  simp only [mkey, stripNeg_append_zeros, digitsVal_append_zeros,
    List.length_append, List.length_replicate]
  unfold cmp3
  push_cast
  rcases h1 : cmpInt (stripNeg a).1 (stripNeg b).1 with _ | _ | _
  · simp [h1]
  · have hs : (stripNeg a).1 = (stripNeg b).1 := cmpInt_eq_eq.mp h1
    simp only [h1]
    rw [← hs]
    rw [cmpInt_sign_add _ _ _ _ hsa, cmpInt_sign_mul_pow _ _ _ _ hsa]
  · simp [h1]

end Northroot

namespace Northroot

theorem normalizeDecScale_of_le (m : List Char) {f t : Nat} (h : f ≤ t) :
    normalizeDecScale m f t = some (m ++ List.replicate (t - f) '0') := by
  unfold normalizeDecScale
  rw [if_neg (by omega)]
  by_cases he : t = f
  · subst he
    simp
  · rw [if_neg he]

/-- Key of a decimal quantity relative to a common reference scale `S`:
the key of its mantissa padded to scale `S`. -/
def decKey (S : Nat) (m : List Char) (s : Nat) : Int × Int × Int :=
  mkey (m ++ List.replicate (S - s) '0')

/-- The decimal comparator computes the lexicographic comparison of the
decimal keys relative to any common scale bound `S`. -/
theorem cmpDec_eq_cmp3 (m1 : List Char) (s1 : Nat) (m2 : List Char) (s2 : Nat)
    (S : Nat) (hs1 : s1 ≤ S) (hs2 : s2 ≤ S)
    (h1 : ((stripNeg m1).2).all isDigitChar = true)
    (h2 : ((stripNeg m2).2).all isDigitChar = true) :
    cmpDec m1 s1 m2 s2 = some (cmp3 (decKey S m1 s1) (decKey S m2 s2)) := by
  have hp1 : ((stripNeg (m1 ++ List.replicate (max s1 s2 - s1) '0')).2).all
      isDigitChar = true := by
    rw [stripNeg_append_zeros]
    have hz := zeros_all_digits (max s1 s2 - s1)
    simp [List.all_append, h1, hz]
  have hp2 : ((stripNeg (m2 ++ List.replicate (max s1 s2 - s2) '0')).2).all
      isDigitChar = true := by
    rw [stripNeg_append_zeros]
    have hz := zeros_all_digits (max s1 s2 - s2)
    simp [List.all_append, h2, hz]
  simp only [cmpDec]
  rw [normalizeDecScale_of_le _ (le_max_left s1 s2),
    normalizeDecScale_of_le _ (le_max_right s1 s2)]
  show cmpIntStrings (m1 ++ List.replicate (max s1 s2 - s1) '0')
      (m2 ++ List.replicate (max s1 s2 - s2) '0') = _
  rw [cmpIntStrings_eq_cmp3 _ _ hp1 hp2]
  unfold decKey
  have e1 : S - s1 = (max s1 s2 - s1) + (S - max s1 s2) := by omega
  have e2 : S - s2 = (max s1 s2 - s2) + (S - max s1 s2) := by omega
  rw [e1, e2, List.replicate_add, List.replicate_add,
    ← List.append_assoc, ← List.append_assoc, cmp3_mkey_shift]

theorem cmp3_ne_gt_iff (a b : Int × Int × Int) :
    cmp3 a b ≠ .gt ↔
      (a.1 < b.1 ∨ (a.1 = b.1 ∧ (a.2.1 < b.2.1 ∨
        (a.2.1 = b.2.1 ∧ a.2.2 ≤ b.2.2)))) := by
  rcases h1 : cmpInt a.1 b.1 with _ | _ | _ <;>
    rcases h2 : cmpInt a.2.1 b.2.1 with _ | _ | _ <;>
    rcases h3 : cmpInt a.2.2 b.2.2 with _ | _ | _ <;>
    (simp only [cmp3, h1, h2, h3]
     simp only [cmpInt_eq_lt, cmpInt_eq_eq, cmpInt_eq_gt] at h1 h2 h3
     simp <;> omega)

theorem cmp3_swap_eq (a b : Int × Int × Int) : cmp3 a b = (cmp3 b a).swap := by
  rcases h1 : cmpInt b.1 a.1 with _ | _ | _ <;>
    rcases h2 : cmpInt b.2.1 a.2.1 with _ | _ | _ <;>
    rcases h3 : cmpInt b.2.2 a.2.2 with _ | _ | _ <;>
    simp only [cmp3, cmpInt_swap a.1 b.1, cmpInt_swap a.2.1 b.2.1,
      cmpInt_swap a.2.2 b.2.2, h1, h2, h3, Ordering.swap]

end Northroot

namespace Northroot

theorem nonzeroLead_all_digits {l : List Char} (h : nonzeroLeadDigits l = true) :
    l.all isDigitChar = true := by
  cases l with
  | nil => simp [nonzeroLeadDigits] at h
  | cons c cs =>
    simp only [nonzeroLeadDigits, Bool.and_eq_true, decide_eq_true_eq] at h
    obtain ⟨⟨h1, h2⟩, h3⟩ := h
    simp only [List.all_cons, Bool.and_eq_true]
    constructor
    · simp only [isDigitChar, Bool.and_eq_true, decide_eq_true_eq]
      omega
    · exact h3

theorem validInteger_digits {s : List Char} (h : isValidInteger s = true) :
    ((stripNeg s).2).all isDigitChar = true := by
  unfold isValidInteger at h
  rcases Bool.or_eq_true_iff.mp h with h0 | hl
  · have : s = ['0'] := by simpa using h0
    subst this
    decide
  · exact nonzeroLead_all_digits hl

theorem ordToResult_within {o : Option Ordering} :
    ordToResult o = .withinBounds ↔ (∃ x, o = some x ∧ x ≠ .gt) := by
  cases o with
  | none => simp [ordToResult]
  | some x => cases x <;> simp [ordToResult]

theorem ordToResult_exceeds {o : Option Ordering} :
    ordToResult o = .exceedsBounds ↔ o = some .gt := by
  cases o with
  | none => simp [ordToResult]
  | some x => cases x <;> simp [ordToResult]

theorem ordToResult_invalid {o : Option Ordering} :
    ordToResult o = .invalid ↔ o = none := by
  cases o with
  | none => simp [ordToResult]
  | some x => cases x <;> simp [ordToResult]

theorem posInteger_pos {s : List Char} (h : isValidPositiveInteger s = true) :
    0 < strVal s := by
  cases s with
  | nil => simp [isValidPositiveInteger, nonzeroLeadDigits] at h
  | cons c cs =>
    simp [isValidPositiveInteger, nonzeroLeadDigits] at h
    have hc : ¬ (c = '-') := by
      intro hc
      subst hc
      have : ('-').toNat = 45 := by decide
      omega
    unfold strVal
    simp [stripNeg, hc]
    rw [digitsVal_cons]
    have h10 : 0 < 10 ^ cs.length := by positivity
    have hdv : 1 ≤ digitVal c := by unfold digitVal; omega
    have := Nat.mul_le_mul_right (10 ^ cs.length) hdv
    omega

theorem parseI128_neg_red (cs : List Char) :
    parseI128 ('-' :: cs) = ((parseDigits cs).bind fun v =>
      if i128Min ≤ -(v : Int) then some (-(v : Int)) else none) := by
  rfl

theorem parseI128_digit_red (c : Char) (cs : List Char)
    (hplus : ¬ c = '+') (hminus : ¬ c = '-') :
    parseI128 (c :: cs) = ((parseDigits (c :: cs)).bind fun v =>
      if (v : Int) ≤ i128Max then some (v : Int) else none) := by
  simp only [parseI128, if_neg hplus, if_neg hminus]

theorem strVal_neg_red (cs : List Char) :
    strVal ('-' :: cs) = -((digitsVal cs : Nat) : Int) := by
  unfold strVal
  simp [stripNeg]

theorem strVal_digit_red (c : Char) (cs : List Char) (hminus : ¬ c = '-') :
    strVal (c :: cs) = ((digitsVal (c :: cs) : Nat) : Int) := by
  unfold strVal
  simp [stripNeg, hminus]

theorem validInteger_shape {s : List Char} (h : isValidInteger s = true) :
    s = ['0'] ∨ nonzeroLeadDigits (stripNeg s).2 = true := by
  unfold isValidInteger at h
  rcases Bool.or_eq_true_iff.mp h with h0 | hl
  · exact Or.inl (by simpa using h0)
  · exact Or.inr hl

theorem validInteger_not_plus {c : Char} {cs : List Char}
    (h : isValidInteger (c :: cs) = true) : ¬ c = '+' := by
  intro hp
  subst hp
  rcases validInteger_shape h with h0 | hl
  · simp at h0
  · simp [stripNeg, nonzeroLeadDigits] at hl

theorem parseI128_zero : parseI128 ['0'] = some (strVal ['0']) := by
  rw [parseI128_digit_red '0' [] (by decide) (by decide)]
  unfold parseDigits
  rw [if_pos ⟨by simp, by decide⟩]
  simp only [Option.some_bind]
  have hz : digitsVal ['0'] = 0 := by decide
  rw [hz]
  rw [if_pos (by norm_num [i128Max])]
  have hs : strVal ['0'] = 0 := by decide
  rw [hs]
  norm_num

theorem parseI128_eq_strVal {s : List Char} {v : Int}
    (hv : isValidInteger s = true) (h : parseI128 s = some v) :
    v = strVal s := by
  cases s with
  | nil => simp [parseI128] at h
  | cons c cs =>
    by_cases hc : c = '-'
    · subst hc
      rw [parseI128_neg_red] at h
      rcases hd : parseDigits cs with _ | w
      · rw [hd] at h
        simp at h
      · rw [hd] at h
        simp only [Option.some_bind] at h
        by_cases hr : i128Min ≤ -((w : Nat) : Int)
        · rw [if_pos hr] at h
          have hw : digitsVal cs = w := by
            unfold parseDigits at hd
            by_cases hcs : cs ≠ [] ∧ cs.all isDigitChar = true
            · rw [if_pos hcs] at hd
              exact Option.some_inj.mp hd
            · rw [if_neg hcs] at hd
              exact absurd hd (by simp)
          rw [strVal_neg_red, hw]
          have := Option.some_inj.mp h
          omega
        · rw [if_neg hr] at h
          simp at h
    · have hplus := validInteger_not_plus hv
      rw [parseI128_digit_red c cs hplus hc] at h
      rcases hd : parseDigits (c :: cs) with _ | w
      · rw [hd] at h
        simp at h
      · rw [hd] at h
        simp only [Option.some_bind] at h
        by_cases hr : ((w : Nat) : Int) ≤ i128Max
        · rw [if_pos hr] at h
          have hw : digitsVal (c :: cs) = w := by
            unfold parseDigits at hd
            by_cases hcs : (c :: cs) ≠ [] ∧ (c :: cs).all isDigitChar = true
            · rw [if_pos hcs] at hd
              exact Option.some_inj.mp hd
            · rw [if_neg hcs] at hd
              exact absurd hd (by simp)
          rw [strVal_digit_red c cs hc, hw]
          have := Option.some_inj.mp h
          omega
        · rw [if_neg hr] at h
          simp at h

theorem parseI128_valid {s : List Char}
    (hv : isValidInteger s = true)
    (hr : i128Min ≤ strVal s ∧ strVal s ≤ i128Max) :
    parseI128 s = some (strVal s) := by
  cases s with
  | nil =>
    rcases validInteger_shape hv with h0 | hl
    · simp at h0
    · simp [stripNeg, nonzeroLeadDigits] at hl
  | cons c cs =>
    by_cases hc : c = '-'
    · subst hc
      have hl : nonzeroLeadDigits cs = true := by
        rcases validInteger_shape hv with h0 | hl
        · simp at h0
        · simpa [stripNeg] using hl
      have hdig := nonzeroLead_all_digits hl
      have hne : cs ≠ [] := by
        cases cs
        · simp [nonzeroLeadDigits] at hl
        · simp
      rw [parseI128_neg_red]
      unfold parseDigits
      rw [if_pos ⟨hne, hdig⟩]
      simp only [Option.some_bind]
      rw [strVal_neg_red] at hr ⊢
      rw [if_pos hr.1]
    · have hplus := validInteger_not_plus hv
      by_cases h0 : (c :: cs) = ['0']
      · rw [h0]
        exact parseI128_zero
      have hl : nonzeroLeadDigits (c :: cs) = true := by
        rcases validInteger_shape hv with hx | hl
        · exact absurd hx h0
        · simpa [stripNeg, hc] using hl
      have hdig := nonzeroLead_all_digits hl
      rw [parseI128_digit_red c cs hplus hc]
      unfold parseDigits
      rw [if_pos ⟨by simp, hdig⟩]
      simp only [Option.some_bind]
      rw [strVal_digit_red c cs hc] at hr ⊢
      rw [if_pos hr.2]

end Northroot

namespace Northroot

theorem cmpRat_eval {n1 d1 n2 d2 : List Char} {a b c d : Int}
    (h1 : parseI128 n1 = some a) (h2 : parseI128 d1 = some b)
    (h3 : parseI128 n2 = some c) (h4 : parseI128 d2 = some d)
    (hm1 : i128Min ≤ a * d ∧ a * d ≤ i128Max)
    (hm2 : i128Min ≤ c * b ∧ c * b ≤ i128Max) :
    cmpRat n1 d1 n2 d2 = some (cmpInt (a * d) (c * b)) := by
  unfold cmpRat
  rw [h1, h2, h3, h4]
  show ((checkedMulI128 a d).bind fun left =>
      (checkedMulI128 c b).bind fun right => some (cmpInt left right)) = _
  unfold checkedMulI128
  rw [if_pos hm1]
  simp only [Option.some_bind]
  rw [if_pos hm2]
  simp only [Option.some_bind]

theorem cmpRat_some_inv {un ud cn cd : List Char} {o : Ordering}
    (h : cmpRat un ud cn cd = some o) :
    ∃ a b c d, parseI128 un = some a ∧ parseI128 ud = some b ∧
      parseI128 cn = some c ∧ parseI128 cd = some d ∧
      (i128Min ≤ a * d ∧ a * d ≤ i128Max) ∧
      (i128Min ≤ c * b ∧ c * b ≤ i128Max) ∧ o = cmpInt (a * d) (c * b) := by
  unfold cmpRat at h
  rcases hp1 : parseI128 un with _ | a <;> rw [hp1] at h <;>
    rcases hp2 : parseI128 ud with _ | b <;> rw [hp2] at h <;>
    rcases hp3 : parseI128 cn with _ | c <;> rw [hp3] at h <;>
    rcases hp4 : parseI128 cd with _ | d <;> rw [hp4] at h
  all_goals first
  | (simp at h; done)
  | (refine ⟨a, b, c, d, rfl, rfl, rfl, rfl, ?_⟩
     replace h : ((checkedMulI128 a d).bind fun left =>
        (checkedMulI128 c b).bind fun right => some (cmpInt left right)) = some o := h
     unfold checkedMulI128 at h
     by_cases hx : i128Min ≤ a * d ∧ a * d ≤ i128Max
     · rw [if_pos hx] at h
       simp only [Option.some_bind] at h
       by_cases hy : i128Min ≤ c * b ∧ c * b ≤ i128Max
       · rw [if_pos hy] at h
         simp only [Option.some_bind] at h
         exact ⟨hx, hy, (Option.some_inj.mp h).symm⟩
       · rw [if_neg hy] at h
         simp at h
     · rw [if_neg hx] at h
       simp at h)

end Northroot

namespace Northroot

theorem cmpRat_swap (un ud cn cd : List Char) :
    cmpRat un ud cn cd = (cmpRat cn cd un ud).map Ordering.swap := by
  unfold cmpRat
  cases hp1 : parseI128 un <;> cases hp2 : parseI128 ud <;>
    cases hp3 : parseI128 cn <;> cases hp4 : parseI128 cd <;> simp
  rename_i a b c d
  unfold checkedMulI128
  by_cases hx : i128Min ≤ a * d ∧ a * d ≤ i128Max <;>
    by_cases hy : i128Min ≤ c * b ∧ c * b ≤ i128Max <;>
    simp [hx, hy]
  exact cmpInt_swap _ _

theorem ordToResult_some_within {o : Ordering} :
    ordToResult (some o) = .withinBounds ↔ o ≠ .gt := by
  cases o <;> simp [ordToResult]

/-- Kind tag of a quantity (the serde discriminator `t`). -/
inductive QKind where
  | int
  | dec
  | rat
  | f64
deriving DecidableEq

/-- The kind of a quantity. -/
def Quantity.kindOf : Quantity → QKind
  | .int _ => .int
  | .dec _ _ => .dec
  | .rat _ _ => .rat
  | .f64 _ => .f64

theorem validQuantity_int {v : String}
    (h : validQuantity (.int v) = true) : isValidInteger v.data = true := by
  simpa [validQuantity] using h

theorem validQuantity_dec {m : String} {s : Nat}
    (h : validQuantity (.dec m s) = true) : isValidInteger m.data = true := by
  have := h
  simp [validQuantity] at this
  exact this.1

theorem validQuantity_rat {n d : String}
    (h : validQuantity (.rat n d) = true) :
    isValidInteger n.data = true ∧ isValidPositiveInteger d.data = true := by
  simpa [validQuantity] using h

end Northroot

namespace Northroot

theorem cmpIntStrings_within_trans {a b c : List Char}
    (hda : ((stripNeg a).2).all isDigitChar = true)
    (hdb : ((stripNeg b).2).all isDigitChar = true)
    (hdc : ((stripNeg c).2).all isDigitChar = true)
    (h1 : ordToResult (cmpIntStrings a b) = .withinBounds)
    (h2 : ordToResult (cmpIntStrings b c) = .withinBounds) :
    ordToResult (cmpIntStrings a c) = .withinBounds := by
  rw [cmpIntStrings_eq_cmp3 a b hda hdb, ordToResult_some_within,
    cmp3_ne_gt_iff] at h1
  rw [cmpIntStrings_eq_cmp3 b c hdb hdc, ordToResult_some_within,
    cmp3_ne_gt_iff] at h2
  rw [cmpIntStrings_eq_cmp3 a c hda hdc, ordToResult_some_within,
    cmp3_ne_gt_iff]
  omega

theorem cmpDec_within_trans {m1 m2 m3 : List Char} {s1 s2 s3 : Nat}
    (hd1 : ((stripNeg m1).2).all isDigitChar = true)
    (hd2 : ((stripNeg m2).2).all isDigitChar = true)
    (hd3 : ((stripNeg m3).2).all isDigitChar = true)
    (h1 : ordToResult (cmpDec m1 s1 m2 s2) = .withinBounds)
    (h2 : ordToResult (cmpDec m2 s2 m3 s3) = .withinBounds) :
    ordToResult (cmpDec m1 s1 m3 s3) = .withinBounds := by
  have hS1 : s1 ≤ max s1 (max s2 s3) := by omega
  have hS2 : s2 ≤ max s1 (max s2 s3) := by omega
  have hS3 : s3 ≤ max s1 (max s2 s3) := by omega
  rw [cmpDec_eq_cmp3 m1 s1 m2 s2 _ hS1 hS2 hd1 hd2, ordToResult_some_within,
    cmp3_ne_gt_iff] at h1
  rw [cmpDec_eq_cmp3 m2 s2 m3 s3 _ hS2 hS3 hd2 hd3, ordToResult_some_within,
    cmp3_ne_gt_iff] at h2
  rw [cmpDec_eq_cmp3 m1 s1 m3 s3 _ hS1 hS3 hd1 hd3, ordToResult_some_within,
    cmp3_ne_gt_iff]
  omega

end Northroot

namespace Northroot

theorem posInteger_validInteger {s : List Char}
    (h : isValidPositiveInteger s = true) : isValidInteger s = true := by
  cases s with
  | nil => simp [isValidPositiveInteger, nonzeroLeadDigits] at h
  | cons c cs =>
    have hc : ¬ (c = '-') := by
      intro hc
      subst hc
      simp [isValidPositiveInteger, nonzeroLeadDigits] at h
    unfold isValidInteger
    unfold isValidPositiveInteger at h
    simp [stripNeg, hc, h]

/-- Mixed-kind pairs always compare as `Invalid`. -/
theorem compare_mixed_invalid (a b : Quantity) (h : a.kindOf ≠ b.kindOf) :
    compareQuantities a b = .invalid := by
  cases a <;> cases b <;> first
    | rfl
    | exact (h rfl).elim

/-- The comparator is antisymmetric: an `ExceedsBounds` answer in one
direction yields `WithinBounds` in the other. -/
theorem compare_antisym (a b : Quantity) (ha : validQuantity a = true)
    (hb : validQuantity b = true)
    (h : compareQuantities a b = .exceedsBounds) :
    compareQuantities b a = .withinBounds := by
  cases a with
  | int v1 =>
    cases b with
    | int v2 =>
      have hda := validInteger_digits (validQuantity_int ha)
      have hdb := validInteger_digits (validQuantity_int hb)
      simp only [compareQuantities] at h ⊢
      rw [cmpIntStrings_eq_cmp3 _ _ hda hdb, ordToResult_exceeds] at h
      have hx := Option.some_inj.mp h
      rw [cmpIntStrings_eq_cmp3 _ _ hdb hda, ordToResult_some_within]
      intro hgt
      have hs := cmp3_swap_eq (mkey v1.data) (mkey v2.data)
      rw [hx, hgt] at hs
      simp [Ordering.swap] at hs
    | dec m s => simp [compareQuantities] at h
    | rat n d => simp [compareQuantities] at h
    | f64 bb => simp [compareQuantities] at h
  | dec m1 s1 =>
    cases b with
    | int v2 => simp [compareQuantities] at h
    | dec m2 s2 =>
      have hda := validInteger_digits (validQuantity_dec ha)
      have hdb := validInteger_digits (validQuantity_dec hb)
      simp only [compareQuantities] at h ⊢
      rw [cmpDec_eq_cmp3 m1.data s1 m2.data s2 (max s1 s2) (le_max_left s1 s2)
        (le_max_right s1 s2) hda hdb, ordToResult_exceeds] at h
      have hx := Option.some_inj.mp h
      rw [cmpDec_eq_cmp3 m2.data s2 m1.data s1 (max s1 s2) (le_max_right s1 s2)
        (le_max_left s1 s2) hdb hda, ordToResult_some_within]
      intro hgt
      have hs := cmp3_swap_eq (decKey (max s1 s2) m1.data s1)
        (decKey (max s1 s2) m2.data s2)
      rw [hx, hgt] at hs
      simp [Ordering.swap] at hs
    | rat n d => simp [compareQuantities] at h
    | f64 bb => simp [compareQuantities] at h
  | rat n1 d1 =>
    cases b with
    | int v2 => simp [compareQuantities] at h
    | dec m s => simp [compareQuantities] at h
    | rat n2 d2 =>
      simp only [compareQuantities] at h ⊢
      rw [ordToResult_exceeds] at h
      rw [cmpRat_swap, h]
      rfl
    | f64 bb => simp [compareQuantities] at h
  | f64 b1 =>
    cases b with
    | int v2 => simp [compareQuantities] at h
    | dec m s => simp [compareQuantities] at h
    | rat n d => simp [compareQuantities] at h
    | f64 b2 =>
      simp only [compareQuantities] at h
      split_ifs at h <;> simp at h

end Northroot

namespace Northroot

set_option maxRecDepth 8000 in
/-- Transitivity of the rational comparator, under the proviso that the
third comparison itself does not overflow out of `i128`. -/
theorem compare_trans_rat (n1 d1 n2 d2 n3 d3 : String)
    (hv1 : validQuantity (.rat n1 d1) = true)
    (hv2 : validQuantity (.rat n2 d2) = true)
    (hv3 : validQuantity (.rat n3 d3) = true)
    (h1 : compareQuantities (.rat n1 d1) (.rat n2 d2) = .withinBounds)
    (h2 : compareQuantities (.rat n2 d2) (.rat n3 d3) = .withinBounds)
    (h3 : compareQuantities (.rat n1 d1) (.rat n3 d3) ≠ .invalid) :
    compareQuantities (.rat n1 d1) (.rat n3 d3) = .withinBounds := by
  obtain ⟨hn1, hd1⟩ := validQuantity_rat hv1
  obtain ⟨hn2, hd2⟩ := validQuantity_rat hv2
  obtain ⟨hn3, hd3⟩ := validQuantity_rat hv3
  simp only [compareQuantities] at h1 h2 h3 ⊢
  obtain ⟨x1, hcr1, hx1⟩ := ordToResult_within.mp h1
  obtain ⟨x2, hcr2, hx2⟩ := ordToResult_within.mp h2
  obtain ⟨x3, hcr3⟩ : ∃ x3,
      cmpRat n1.data d1.data n3.data d3.data = some x3 := by
    rcases hc : cmpRat n1.data d1.data n3.data d3.data with _ | y
    · exfalso
      apply h3
      rw [hc]
      rfl
    · exact ⟨y, rfl⟩
  rw [hcr3, ordToResult_some_within]
  obtain ⟨a1, b1, c1, e1, hp11, hp12, hp13, hp14, hm11, hm12, ho1⟩ :=
    cmpRat_some_inv hcr1
  obtain ⟨a2, b2, c2, e2, hp21, hp22, hp23, hp24, hm21, hm22, ho2⟩ :=
    cmpRat_some_inv hcr2
  obtain ⟨a3, b3, c3, e3, hp31, hp32, hp33, hp34, hm31, hm32, ho3⟩ :=
    cmpRat_some_inv hcr3
  have ea1 := parseI128_eq_strVal hn1 hp11
  have eb1 := parseI128_eq_strVal (posInteger_validInteger hd1) hp12
  have ec1 := parseI128_eq_strVal hn2 hp13
  have ee1 := parseI128_eq_strVal (posInteger_validInteger hd2) hp14
  have ea2 := parseI128_eq_strVal hn2 hp21
  have eb2 := parseI128_eq_strVal (posInteger_validInteger hd2) hp22
  have ec2 := parseI128_eq_strVal hn3 hp23
  have ee2 := parseI128_eq_strVal (posInteger_validInteger hd3) hp24
  have ea3 := parseI128_eq_strVal hn1 hp31
  have eb3 := parseI128_eq_strVal (posInteger_validInteger hd1) hp32
  have ec3 := parseI128_eq_strVal hn3 hp33
  have ee3 := parseI128_eq_strVal (posInteger_validInteger hd3) hp34
  subst ea1 eb1 ec1 ee1 ea2 eb2 ec2 ee2 ea3 eb3 ec3 ee3
  have hq1 : strVal n1.data * strVal d2.data ≤
      strVal n2.data * strVal d1.data := by
    subst ho1
    rcases hcc : cmpInt (strVal n1.data * strVal d2.data)
        (strVal n2.data * strVal d1.data) with _ | _ | _
    · exact le_of_lt (cmpInt_eq_lt.mp hcc)
    · exact le_of_eq (cmpInt_eq_eq.mp hcc)
    · exact absurd hcc hx1
  have hq2 : strVal n2.data * strVal d3.data ≤
      strVal n3.data * strVal d2.data := by
    subst ho2
    rcases hcc : cmpInt (strVal n2.data * strVal d3.data)
        (strVal n3.data * strVal d2.data) with _ | _ | _
    · exact le_of_lt (cmpInt_eq_lt.mp hcc)
    · exact le_of_eq (cmpInt_eq_eq.mp hcc)
    · exact absurd hcc hx2
  have hp1pos : 0 < strVal d1.data := posInteger_pos hd1
  have hp2pos : 0 < strVal d2.data := posInteger_pos hd2
  have hp3pos : 0 < strVal d3.data := posInteger_pos hd3
  have hgoal : strVal n1.data * strVal d3.data ≤
      strVal n3.data * strVal d1.data := by
    have t1 := mul_le_mul_of_nonneg_right hq1 (le_of_lt hp3pos)
    have t2 := mul_le_mul_of_nonneg_right hq2 (le_of_lt hp1pos)
    have t3 : strVal n1.data * strVal d3.data * strVal d2.data ≤
        strVal n3.data * strVal d1.data * strVal d2.data := by nlinarith [t1, t2]
    exact le_of_mul_le_mul_right t3 hp2pos
  subst ho3
  intro hgt
  have := cmpInt_eq_gt.mp hgt
  omega

end Northroot

namespace Northroot

set_option maxRecDepth 8000 in
/-- C1 (counterexample): the rational comparator is not arbitrary-precision.
For the valid rational pair `200000000000000000000000000000000000000/1`
(whose numerator exceeds `i128`) against `1/1`, `cmp` returns `Invalid`,
contradicting the claim that it never returns `Invalid` for a same-kind
rational pair. -/
theorem c1_arbitrary_precision_counterexample :
    validQuantity
        (.rat "200000000000000000000000000000000000000" "1") = true
      ∧ validQuantity (.rat "1" "1") = true
      ∧ compareQuantities
          (.rat "200000000000000000000000000000000000000" "1")
          (.rat "1" "1") = .invalid := by
  decide

/-- C1 (amended): for valid rational quantities whose four components and
both cross-products fit in `i128`, `cmp` decides by cross-multiplying
`n1 * d2` against `n2 * d1` in 128-bit arithmetic: it returns
`WithinBounds` exactly when `n1 * d2 ≤ n2 * d1` and `ExceedsBounds`
otherwise; outside the `i128` range it can return `Invalid`. -/
theorem c1_rat_cmp_cross_multiply (n1 d1 n2 d2 : String)
    (hv1 : validQuantity (.rat n1 d1) = true)
    (hv2 : validQuantity (.rat n2 d2) = true)
    (hr1 : i128Min ≤ strVal n1.data ∧ strVal n1.data ≤ i128Max)
    (hr2 : i128Min ≤ strVal d1.data ∧ strVal d1.data ≤ i128Max)
    (hr3 : i128Min ≤ strVal n2.data ∧ strVal n2.data ≤ i128Max)
    (hr4 : i128Min ≤ strVal d2.data ∧ strVal d2.data ≤ i128Max)
    (hm1 : i128Min ≤ strVal n1.data * strVal d2.data ∧
      strVal n1.data * strVal d2.data ≤ i128Max)
    (hm2 : i128Min ≤ strVal n2.data * strVal d1.data ∧
      strVal n2.data * strVal d1.data ≤ i128Max) :
    compareQuantities (.rat n1 d1) (.rat n2 d2) =
      if strVal n1.data * strVal d2.data ≤ strVal n2.data * strVal d1.data
      then .withinBounds else .exceedsBounds := by
  obtain ⟨hn1, hd1⟩ := validQuantity_rat hv1
  obtain ⟨hn2, hd2⟩ := validQuantity_rat hv2
  have p1 := parseI128_valid hn1 hr1
  have p2 := parseI128_valid (posInteger_validInteger hd1) hr2
  have p3 := parseI128_valid hn2 hr3
  have p4 := parseI128_valid (posInteger_validInteger hd2) hr4
  simp only [compareQuantities]
  rw [cmpRat_eval p1 p2 p3 p4 hm1 hm2]
  by_cases hle : strVal n1.data * strVal d2.data ≤
      strVal n2.data * strVal d1.data
  · rw [if_pos hle, ordToResult_some_within]
    intro hgt
    have := cmpInt_eq_gt.mp hgt
    omega
  · rw [if_neg hle, ordToResult_exceeds,
      show cmpInt (strVal n1.data * strVal d2.data)
        (strVal n2.data * strVal d1.data) = .gt from
        cmpInt_eq_gt.mpr (by omega)]

set_option maxRecDepth 8000 in
/-- C1 (witness): the amended theorem applied at `1/2` against `3/4`. -/
theorem c1_rat_cmp_cross_multiply_witness :
    compareQuantities (.rat "1" "2") (.rat "3" "4") =
      if strVal "1".data * strVal "4".data ≤ strVal "3".data * strVal "2".data
      then .withinBounds else .exceedsBounds :=
  c1_rat_cmp_cross_multiply "1" "2" "3" "4" (by decide) (by decide)
    (by decide) (by decide) (by decide) (by decide) (by decide) (by decide)

/-- C2 (code bug): comparing the valid decimal quantities `0` (scale 0)
against `0.5` (mantissa `"5"`, scale 1), the code pads the zero mantissa to
`"00"` and the length-first integer comparator then reports
`ExceedsBounds`, although the denoted values satisfy
`0 * 10^1 ≤ 5 * 10^0`, so the claimed value comparison requires
`WithinBounds`. -/
theorem c2_decimal_zero_padding_bug :
    compareQuantities (.dec "0" 0) (.dec "5" 1) = .exceedsBounds
      ∧ validQuantity (.dec "0" 0) = true
      ∧ validQuantity (.dec "5" 1) = true
      ∧ strVal "0".data * 10 ^ (1 : Nat) ≤ strVal "5".data * 10 ^ (0 : Nat) := by
  decide

set_option maxRecDepth 8000 in
/-- C8 (counterexample): transitivity of `cmp` fails for rationals because
of `i128` overflow: with `a = 100000000000000000000/100000000000000000000`
and `b = 1/1`, `cmp(a,b)` and `cmp(b,a)` are `WithinBounds` but `cmp(a,a)`
is `Invalid` (the cross-product `10^40` overflows), refuting
`cmp(a,b) = cmp(b,c) = WithinBounds → cmp(a,c) = WithinBounds`
at `c = a`. -/
theorem c8_transitivity_counterexample :
    validQuantity
        (.rat "100000000000000000000" "100000000000000000000") = true
      ∧ validQuantity (.rat "1" "1") = true
      ∧ compareQuantities
          (.rat "100000000000000000000" "100000000000000000000")
          (.rat "1" "1") = .withinBounds
      ∧ compareQuantities (.rat "1" "1")
          (.rat "100000000000000000000" "100000000000000000000")
          = .withinBounds
      ∧ compareQuantities
          (.rat "100000000000000000000" "100000000000000000000")
          (.rat "100000000000000000000" "100000000000000000000")
          = .invalid := by
  decide

/-- C8 (amended): mixed-kind pairs always compare as `Invalid`; for valid
quantities `cmp` is antisymmetric (`ExceedsBounds` one way forces
`WithinBounds` the other way); and `cmp` is transitive on `WithinBounds`
for integers, decimals and `f64` values, and for rationals whenever the
third comparison does not overflow `i128` (is not `Invalid`). -/
theorem c8_same_kind_order_props :
    (∀ a b : Quantity, a.kindOf ≠ b.kindOf → compareQuantities a b = .invalid)
    ∧ (∀ a b : Quantity, validQuantity a = true → validQuantity b = true →
        compareQuantities a b = .exceedsBounds →
        compareQuantities b a = .withinBounds)
    ∧ (∀ v1 v2 v3 : String, isValidInteger v1.data = true →
        isValidInteger v2.data = true → isValidInteger v3.data = true →
        compareQuantities (.int v1) (.int v2) = .withinBounds →
        compareQuantities (.int v2) (.int v3) = .withinBounds →
        compareQuantities (.int v1) (.int v3) = .withinBounds)
    ∧ (∀ (m1 m2 m3 : String) (s1 s2 s3 : Nat), isValidInteger m1.data = true →
        isValidInteger m2.data = true → isValidInteger m3.data = true →
        compareQuantities (.dec m1 s1) (.dec m2 s2) = .withinBounds →
        compareQuantities (.dec m2 s2) (.dec m3 s3) = .withinBounds →
        compareQuantities (.dec m1 s1) (.dec m3 s3) = .withinBounds)
    ∧ (∀ b1 b2 b3 : String,
        compareQuantities (.f64 b1) (.f64 b2) = .withinBounds →
        compareQuantities (.f64 b2) (.f64 b3) = .withinBounds →
        compareQuantities (.f64 b1) (.f64 b3) = .withinBounds)
    ∧ (∀ n1 d1 n2 d2 n3 d3 : String,
        validQuantity (.rat n1 d1) = true → validQuantity (.rat n2 d2) = true →
        validQuantity (.rat n3 d3) = true →
        compareQuantities (.rat n1 d1) (.rat n2 d2) = .withinBounds →
        compareQuantities (.rat n2 d2) (.rat n3 d3) = .withinBounds →
        compareQuantities (.rat n1 d1) (.rat n3 d3) ≠ .invalid →
        compareQuantities (.rat n1 d1) (.rat n3 d3) = .withinBounds) := by
  refine ⟨compare_mixed_invalid, compare_antisym, ?_, ?_, ?_, compare_trans_rat⟩
  · intro v1 v2 v3 h1 h2 h3 hw1 hw2
    have hd1 := validInteger_digits h1
    have hd2 := validInteger_digits h2
    have hd3 := validInteger_digits h3
    simp only [compareQuantities] at hw1 hw2 ⊢
    exact cmpIntStrings_within_trans hd1 hd2 hd3 hw1 hw2
  · intro m1 m2 m3 s1 s2 s3 h1 h2 h3 hw1 hw2
    have hd1 := validInteger_digits h1
    have hd2 := validInteger_digits h2
    have hd3 := validInteger_digits h3
    simp only [compareQuantities] at hw1 hw2 ⊢
    exact cmpDec_within_trans hd1 hd2 hd3 hw1 hw2
  · intro b1 b2 b3 h1 h2
    simp only [compareQuantities] at h1 h2 ⊢
    by_cases e1 : b1 = b2
    · subst e1
      exact h2
    · rw [if_neg e1] at h1
      simp at h1

set_option maxRecDepth 8000 in
/-- C8 (witness): the amended theorem applied at concrete quantities:
rational transitivity at `1/2 ≤ 1/1 ≤ 3/1` and a mixed int/dec pair. -/
theorem c8_same_kind_order_props_witness :
    compareQuantities (.rat "1" "2") (.rat "3" "1") = .withinBounds
      ∧ compareQuantities (.int "1") (.dec "1" 0) = .invalid := by
  constructor
  · exact c8_same_kind_order_props.2.2.2.2.2 "1" "2" "1" "1" "3" "1"
      (by decide) (by decide) (by decide) (by decide) (by decide) (by decide)
  · exact c8_same_kind_order_props.1 (.int "1") (.dec "1" 0) (by decide)

end Northroot

namespace Northroot

/-- Digest algorithm tag (`northroot_canonical::DigestAlg`); the source
supports only SHA-256. -/
inductive DigestAlg where
  | sha256
deriving DecidableEq

/-- A content digest (`northroot_canonical::Digest`): algorithm tag and
base64url text. -/
structure Digest where
  alg : DigestAlg
  b64 : String
deriving DecidableEq

/-- A meter (`northroot_core::shared::Meter`): unit name and exact amount. -/
structure Meter where
  unit : String
  amount : Quantity
deriving DecidableEq

/-- Outcome of an execution (`northroot_core::events::Outcome`). -/
inductive Outcome where
  | success
  | failure
deriving DecidableEq

/-- Token type of a price entry (`TokenType` in verification.rs). -/
inductive TokenType where
  | input
  | output
deriving DecidableEq

/-- A token price entry (`TokenPrice` in verification.rs). -/
structure TokenPrice where
  model_id : String
  provider : String
  token_type : TokenType
  price_per_token : Quantity
  timestamp : String

/-- A unit rate entry (`UnitRate` in verification.rs). -/
structure UnitRate where
  unit : String
  price_per_unit : Quantity
  timestamp : String

/-- A price index snapshot (`PriceIndexSnapshot` in verification.rs). -/
structure PriceIndexSnapshot where
  as_of : String
  token_prices : List TokenPrice
  compute_rates : Option (List UnitRate)
  storage_rates : Option (List UnitRate)

/-- Conversion context (`ConversionContext` in verification.rs). -/
structure ConversionContext where
  snapshot : PriceIndexSnapshot

/-- Execution event (`northroot_core::events::ExecutionEvent`), with the
fields consulted by the embedded verifier functions; identifier newtypes
are modelled as plain strings and digests abstractly. -/
structure ExecutionEvent where
  event_id : Digest
  event_type : String
  event_version : String
  auth_event_id : Digest
  tool_name : String
  meter_used : List Meter
  outcome : Outcome
  error_code : Option String
  model_id : Option String
  provider : Option String
  pricing_snapshot_digest : Option Digest

/-- Verification verdict (`VerificationVerdict` in verification.rs). -/
inductive VerificationVerdict where
  | ok
  | denied
  | violation
  | invalid
deriving DecidableEq

/-- Model of `num_bigint::BigInt::parse_bytes` base 10: optional sign and a
nonempty digit run, with no size limit. -/
def parseBigInt (s : List Char) : Option Int :=
  match s with
  | c :: rest =>
    if c = '+' then (parseDigits rest).map fun v => (v : Int)
    else if c = '-' then (parseDigits rest).map fun v => -(v : Int)
    else (parseDigits (c :: rest)).map fun v => (v : Int)
  | [] => none

/-- Decimal rendering of an integer in minimal form, as `BigInt::to_string`
produces. -/
def intToStr (i : Int) : String :=
  if i < 0 then ⟨'-' :: Nat.toDigits 10 i.natAbs⟩ else ⟨Nat.toDigits 10 i.natAbs⟩

/-- Upper bound of Rust `u32`, for the saturating scale addition. -/
def u32Max : Nat := 2 ^ 32 - 1

/-- Embedding of `Verifier::mul_quantities` (verification.rs, lines
679-711): `int*int`, `int*dec`, `dec*int` and `dec*dec` multiply the
parsed big integers; everything else is unsupported. -/
def mulQuantities (a b : Quantity) : Option Quantity :=
  match a, b with
  | .int av, .int bv =>
    (parseBigInt av.data).bind fun l =>
      (parseBigInt bv.data).bind fun r => some (.int (intToStr (l * r)))
  | .int av, .dec bm bs =>
    (parseBigInt av.data).bind fun l =>
      (parseBigInt bm.data).bind fun r => some (.dec (intToStr (l * r)) bs)
  | .dec bm bs, .int av =>
    (parseBigInt av.data).bind fun l =>
      (parseBigInt bm.data).bind fun r => some (.dec (intToStr (l * r)) bs)
  | .dec am sa, .dec bm sb =>
    (parseBigInt am.data).bind fun l =>
      (parseBigInt bm.data).bind fun r =>
        some (.dec (intToStr (l * r)) (min (sa + sb) u32Max))
  | _, _ => none

/-- Embedding of `Verifier::convert_to_usd` (verification.rs, lines
622-670): token units need the model and provider of the execution plus a
matching token price; `compute.seconds` and `storage.bytes` use the unit
rate tables; other units have no conversion. -/
def convertToUsd (meter : Meter) (exec : ExecutionEvent)
    (ctx : ConversionContext) : Option Quantity :=
  if "tokens.".isPrefixOf meter.unit then
    (if meter.unit = "tokens.input" then some TokenType.input
     else if meter.unit = "tokens.output" then some TokenType.output
     else none).bind fun tokenType =>
    exec.model_id.bind fun modelId =>
    exec.provider.bind fun providerId =>
    (ctx.snapshot.token_prices.find? fun p =>
      p.model_id == modelId && p.provider == providerId &&
        p.token_type == tokenType).bind fun priceEntry =>
    mulQuantities meter.amount priceEntry.price_per_token
  else if meter.unit = "compute.seconds" || meter.unit = "storage.bytes" then
    (if meter.unit = "compute.seconds" then ctx.snapshot.compute_rates
     else ctx.snapshot.storage_rates).bind fun rates =>
    (rates.find? fun r => r.unit == meter.unit).bind fun rateEntry =>
    mulQuantities meter.amount rateEntry.price_per_unit
  else none

/-- Lookup in the cap map of `check_meter_bounds`: the map is a `HashMap`
built by inserting every cap in order, so a later cap with the same unit
overwrites an earlier one; lookup therefore finds the last cap with the
requested unit. -/
def capLookup (caps : List Meter) (u : String) : Option Quantity :=
  (caps.reverse.find? fun c => c.unit == u).map fun c => c.amount

/-- The loop of `Verifier::check_meter_bounds` (verification.rs, lines
545-617), carrying the `has_violation` and `has_missing_evidence` flags. -/
def checkMeterLoop (caps : List Meter) (exec : ExecutionEvent)
    (conversion : Option ConversionContext) :
    List Meter → Bool → Bool → VerificationVerdict
  | [], hasViolation, hasMissing =>
    if hasViolation then .violation
    else if hasMissing then .invalid
    else .ok
  | meter :: rest, hasViolation, hasMissing =>
    match capLookup caps meter.unit with
    | some capAmount =>
      match compareQuantities meter.amount capAmount with
      | .withinBounds =>
        checkMeterLoop caps exec conversion rest hasViolation hasMissing
      | .exceedsBounds =>
        checkMeterLoop caps exec conversion rest true hasMissing
      | .invalid =>
        checkMeterLoop caps exec conversion rest hasViolation true
    | none =>
      match capLookup caps "usd" with
      | some usdCap =>
        match conversion with
        | some ctx =>
          match convertToUsd meter exec ctx with
          | some converted =>
            match compareQuantities converted usdCap with
            | .withinBounds =>
              checkMeterLoop caps exec conversion rest hasViolation hasMissing
            | .exceedsBounds =>
              checkMeterLoop caps exec conversion rest true hasMissing
            | .invalid =>
              checkMeterLoop caps exec conversion rest hasViolation true
          | none =>
            checkMeterLoop caps exec conversion rest hasViolation true
        | none =>
          checkMeterLoop caps exec conversion rest hasViolation true
      | none =>
        checkMeterLoop caps exec conversion rest hasViolation hasMissing

/-- Embedding of `Verifier::check_meter_bounds`: run the loop over the used
meters with both flags initially clear. -/
def checkMeterBounds (used caps : List Meter) (exec : ExecutionEvent)
    (conversion : Option ConversionContext) : VerificationVerdict :=
  checkMeterLoop caps exec conversion used false false

/-- Classification of a single used meter by the bounds check. -/
inductive MeterCheck where
  | ok
  | violation
  | missing
  | skipped
deriving DecidableEq

/-- Per-meter outcome of one iteration of the bounds-check loop: direct
match compares against the cap; otherwise a USD cap demands a conversion
context and a successful conversion; without a USD cap the meter is
skipped. -/
def classifyMeter (caps : List Meter) (exec : ExecutionEvent)
    (conversion : Option ConversionContext) (meter : Meter) : MeterCheck :=
  match capLookup caps meter.unit with
  | some capAmount =>
    match compareQuantities meter.amount capAmount with
    | .withinBounds => .ok
    | .exceedsBounds => .violation
    | .invalid => .missing
  | none =>
    match capLookup caps "usd" with
    | some usdCap =>
      match conversion with
      | some ctx =>
        match convertToUsd meter exec ctx with
        | some converted =>
          match compareQuantities converted usdCap with
          | .withinBounds => .ok
          | .exceedsBounds => .violation
          | .invalid => .missing
        | none => .missing
      | none => .missing
    | none => .skipped

end Northroot

namespace Northroot

theorem checkMeterLoop_spec (caps : List Meter) (exec : ExecutionEvent)
    (conv : Option ConversionContext) (used : List Meter) (v m : Bool) :
    checkMeterLoop caps exec conv used v m =
      if (v || used.any fun mt => classifyMeter caps exec conv mt == .violation)
      then .violation
      else if (m || used.any fun mt =>
          classifyMeter caps exec conv mt == .missing)
      then .invalid
      else .ok := by
  induction used generalizing v m with
  | nil => simp [checkMeterLoop]
  | cons mt rest ih =>
    rcases h1 : capLookup caps mt.unit with _ | capAmount
    · rcases h2 : capLookup caps "usd" with _ | usdCap
      · have hc : classifyMeter caps exec conv mt = .skipped := by
          simp [classifyMeter, h1, h2]
        simp only [checkMeterLoop, h1, h2]
        rw [ih]
        simp [List.any_cons, hc, beq_iff_eq]
      · cases conv with
        | none =>
          have hc : classifyMeter caps exec none mt = .missing := by
            simp [classifyMeter, h1, h2]
          simp only [checkMeterLoop, h1, h2]
          rw [ih]
          simp [List.any_cons, hc, beq_iff_eq]
        | some ctx =>
          rcases h3 : convertToUsd mt exec ctx with _ | converted
          · have hc : classifyMeter caps exec (some ctx) mt = .missing := by
              simp [classifyMeter, h1, h2, h3]
            simp only [checkMeterLoop, h1, h2, h3]
            rw [ih]
            simp [List.any_cons, hc, beq_iff_eq]
          · rcases h4 : compareQuantities converted usdCap with _ | _ | _
            · have hc : classifyMeter caps exec (some ctx) mt = .ok := by
                simp [classifyMeter, h1, h2, h3, h4]
              simp only [checkMeterLoop, h1, h2, h3, h4]
              rw [ih]
              simp [List.any_cons, hc, beq_iff_eq]
            · have hc : classifyMeter caps exec (some ctx) mt = .violation := by
                simp [classifyMeter, h1, h2, h3, h4]
              simp only [checkMeterLoop, h1, h2, h3, h4]
              rw [ih]
              simp [List.any_cons, hc, beq_iff_eq]
            · have hc : classifyMeter caps exec (some ctx) mt = .missing := by
                simp [classifyMeter, h1, h2, h3, h4]
              simp only [checkMeterLoop, h1, h2, h3, h4]
              rw [ih]
              simp [List.any_cons, hc, beq_iff_eq]
    · rcases h2 : compareQuantities mt.amount capAmount with _ | _ | _
      · have hc : classifyMeter caps exec conv mt = .ok := by
          simp [classifyMeter, h1, h2]
        simp only [checkMeterLoop, h1, h2]
        rw [ih]
        simp [List.any_cons, hc, beq_iff_eq]
      · have hc : classifyMeter caps exec conv mt = .violation := by
          simp [classifyMeter, h1, h2]
        simp only [checkMeterLoop, h1, h2]
        rw [ih]
        simp [List.any_cons, hc, beq_iff_eq]
      · have hc : classifyMeter caps exec conv mt = .missing := by
          simp [classifyMeter, h1, h2]
        simp only [checkMeterLoop, h1, h2]
        rw [ih]
        simp [List.any_cons, hc, beq_iff_eq]

end Northroot

namespace Northroot

theorem any_classify_filter (caps : List Meter) (exec : ExecutionEvent)
    (conv : Option ConversionContext) (l : List Meter) (target : MeterCheck)
    (h : target ≠ .skipped) :
    ((l.filter fun mt => !(classifyMeter caps exec conv mt == .skipped)).any
        fun mt => classifyMeter caps exec conv mt == target)
      = l.any fun mt => classifyMeter caps exec conv mt == target := by
  induction l with
  | nil => simp
  | cons mt rest ih =>
    by_cases hs : classifyMeter caps exec conv mt = MeterCheck.skipped
    · have ht : (classifyMeter caps exec conv mt == target) = false := by
        rw [hs]
        simp [beq_iff_eq]
        intro he
        exact h he.symm
      simp [List.filter_cons, List.any_cons, hs, ht, ih]
      intro he
      exact absurd he.symm h
    · simp [List.filter_cons, List.any_cons, hs, ih]

/-- C4: `check_meter_bounds` aggregates per-meter results: any violating
meter makes the verdict `Violation`; otherwise any meter with missing
evidence (mixed-kind comparison, USD cap without conversion context, or
failed conversion) makes it `Invalid`; otherwise it is `Ok`. Meters that
match no cap and face no USD cap are skipped and never affect the
verdict: dropping them leaves the verdict unchanged. -/
theorem c4_meter_bounds_aggregation :
    (∀ (used caps : List Meter) (exec : ExecutionEvent)
        (conversion : Option ConversionContext),
      checkMeterBounds used caps exec conversion =
        if used.any fun mt => classifyMeter caps exec conversion mt == .violation
        then .violation
        else if used.any fun mt =>
            classifyMeter caps exec conversion mt == .missing
        then .invalid
        else .ok)
    ∧ (∀ (used caps : List Meter) (exec : ExecutionEvent)
        (conversion : Option ConversionContext),
      checkMeterBounds
          (used.filter fun mt =>
            !(classifyMeter caps exec conversion mt == .skipped))
          caps exec conversion
        = checkMeterBounds used caps exec conversion) := by
  constructor
  · intro used caps exec conversion
    unfold checkMeterBounds
    rw [checkMeterLoop_spec]
    simp
  · intro used caps exec conversion
    unfold checkMeterBounds
    rw [checkMeterLoop_spec, checkMeterLoop_spec]
    rw [any_classify_filter caps exec conversion used .violation (by simp),
      any_classify_filter caps exec conversion used .missing (by simp)]

end Northroot

namespace Northroot

/-- Merkle window of a checkpoint
(`northroot_core::events::MerkleWindow`). -/
structure MerkleWindow where
  start_height : Option Nat
  end_height : Option Nat
deriving DecidableEq

/-- Checkpoint event (`northroot_core::events::CheckpointEvent`), with
identifier newtypes modelled as strings and digests abstractly. -/
structure CheckpointEvent where
  event_id : Digest
  event_type : String
  event_version : String
  prev_event_id : Option Digest
  occurred_at : String
  principal_id : String
  canonical_profile_id : String
  chain_tip_event_id : Digest
  chain_tip_height : Nat
  merkle_root : Option Digest
  window : Option MerkleWindow
deriving DecidableEq

/-- Embedding of `Verifier::verify_checkpoint` (verification.rs, lines
372-405). The event-id recomputation (SHA-256 over canonical bytes,
claim C5) enters only through its result, passed here as `computedId`;
the sequential early returns of the source are mirrored as nested
conditionals. -/
def verifyCheckpoint (computedId : Digest) (e : CheckpointEvent) :
    Digest × VerificationVerdict :=
  if e.event_id ≠ computedId then (computedId, .invalid)
  else if e.event_type ≠ "checkpoint" then (computedId, .invalid)
  else if e.event_version ≠ "1" then (computedId, .invalid)
  else if e.merkle_root.isSome ∧ e.window.isNone then (computedId, .invalid)
  else
    match e.window with
    | some w =>
      match w.start_height, w.end_height with
      | some a, some b =>
        if a > b then (computedId, .invalid) else (computedId, .ok)
      | _, _ => (computedId, .ok)
    | none => (computedId, .ok)

/-- C3 (amended): for a checkpoint whose event-id, type and version checks
pass, the verdict is `Invalid` whenever the window carries
`start_height > end_height` (with or without a `merkle_root`), and
whenever `merkle_root` is present without a window; but a window present
WITHOUT `merkle_root` is accepted: with coherent heights the verdict is
`Ok`, not `Invalid`. -/
theorem c3_checkpoint_window_checks (computedId : Digest)
    (e : CheckpointEvent) (hid : e.event_id = computedId)
    (hty : e.event_type = "checkpoint") (hv : e.event_version = "1") :
    (∀ w a b, e.window = some w →
      w.start_height = some a → w.end_height = some b → a > b →
      (verifyCheckpoint computedId e).2 = .invalid)
    ∧ (e.merkle_root.isSome → e.window = none →
      (verifyCheckpoint computedId e).2 = .invalid)
    ∧ (∀ w, e.merkle_root = none → e.window = some w →
      (∀ a b, w.start_height = some a → w.end_height = some b → a ≤ b) →
      (verifyCheckpoint computedId e).2 = .ok) := by
  refine ⟨?_, ?_, ?_⟩
  · intro w a b hw hsa hsb hab
    unfold verifyCheckpoint
    rw [if_neg (by simp [hid]), if_neg (by simp [hty]), if_neg (by simp [hv]),
      if_neg (by simp [hw])]
    rw [hw]
    simp only [hsa, hsb]
    rw [if_pos hab]
  · intro hmr hw
    unfold verifyCheckpoint
    rw [if_neg (by simp [hid]), if_neg (by simp [hty]), if_neg (by simp [hv]),
      if_pos (by simp [hmr, hw])]
  · intro w hmr hw hco
    unfold verifyCheckpoint
    rw [if_neg (by simp [hid]), if_neg (by simp [hty]), if_neg (by simp [hv]),
      if_neg (by simp [hmr])]
    rw [hw]
    rcases hsa : w.start_height with _ | a
    · simp [hsa]
    · rcases hsb : w.end_height with _ | b
      · simp [hsa, hsb]
      · simp only [hsa, hsb]
        rw [if_neg (by have := hco a b hsa hsb; omega)]

/-- C3 (witness): the amended theorem applied to a concrete checkpoint
carrying a Merkle root but no window. -/
theorem c3_checkpoint_window_checks_witness :
    (verifyCheckpoint ⟨.sha256, "d"⟩
      { event_id := ⟨.sha256, "d"⟩, event_type := "checkpoint",
        event_version := "1", prev_event_id := none, occurred_at := "t",
        principal_id := "service:a", canonical_profile_id := "profile",
        chain_tip_event_id := ⟨.sha256, "e"⟩, chain_tip_height := 1,
        merkle_root := some ⟨.sha256, "m"⟩, window := none }).2
      = .invalid :=
  (c3_checkpoint_window_checks ⟨.sha256, "d"⟩ _ rfl rfl rfl).2.1
    (by decide) rfl

/-- C3 (counterexample): a checkpoint with a window but no `merkle_root`,
passing the id, type and version checks, verifies as `Ok`; the claim
as stated requires `Invalid` here. -/
theorem c3_window_without_merkle_counterexample :
    (verifyCheckpoint ⟨.sha256, "d"⟩
      { event_id := ⟨.sha256, "d"⟩, event_type := "checkpoint",
        event_version := "1", prev_event_id := none, occurred_at := "t",
        principal_id := "service:a", canonical_profile_id := "profile",
        chain_tip_event_id := ⟨.sha256, "e"⟩, chain_tip_height := 1,
        merkle_root := none,
        window := some { start_height := some 0, end_height := some 0 } }).2
      = .ok := by
  decide

end Northroot

namespace Northroot

/-- JSON values (`serde_json::Value`), with numbers modelled as integers;
the spec requires lossless numerics to use the `Quantity` union, and no
claim depends on float rendering. -/
inductive Json where
  | null
  | bool (b : Bool)
  | num (n : Int)
  | str (s : String)
  | arr (items : List Json)
  | obj (fields : List (String × Json))

/-- Field access on a JSON object (`Value::get`), returning the first
binding of the key; `serde_json` maps cannot hold duplicates. -/
def Json.get : Json → String → Option Json
  | .obj fields, k => (fields.find? fun p => p.1 == k).map fun p => p.2
  | _, _ => none

/-- String field access (`event.get(k).and_then(|v| v.as_str())`). -/
def getStr (j : Json) (k : String) : Option String :=
  match j.get k with
  | some (.str s) => some s
  | _ => none

/-- Journal errors (`northroot_journal::errors::JournalError`); payload
carriers are kept, strings and offsets included. -/
inductive JournalError where
  | io
  | invalidHeader (reason : String)
  | invalidFrame (offset : Nat) (reason : String)
  | payloadTooLarge (size max : Nat)
  | invalidUtf8
  | jsonParse
  | invalidJson (reason : String)
  | fileNotEmpty
  | truncatedFrame (offset : Nat)
deriving DecidableEq

/-- Embedding of `verify_event`
(src/crates/northroot-journal/src/verification.rs, lines 33-82): dispatch
on the `event_type` string. The typed parse plus per-kind verification of
the three supported kinds (serde plus the core verifier) is passed in as
three functions, since only the dispatch is at issue; execution events
are rejected outright because they need the linked authorization. -/
def verifyEvent
    (verifyAuthJson verifyCheckpointJson verifyAttestationJson :
      Json → Except JournalError VerificationVerdict)
    (event : Json) : Except JournalError VerificationVerdict :=
  match getStr event "event_type" with
  | none => .error (.invalidJson "missing event_type")
  | some eventType =>
    if eventType = "authorization" then verifyAuthJson event
    else if eventType = "checkpoint" then verifyCheckpointJson event
    else if eventType = "attestation" then verifyAttestationJson event
    else if eventType = "execution" then
      .error (.invalidJson
        "execution events require authorization event for verification; use verify_execution directly")
    else .error (.invalidJson ("unknown event type: " ++ eventType))

/-- C9: for every event JSON whose `event_type` field is the string
`"execution"`, the journal-level `verify_event` returns an error and
never a verdict, whatever the three per-kind verifiers do. -/
theorem c9_verify_event_rejects_execution
    (verifyAuthJson verifyCheckpointJson verifyAttestationJson :
      Json → Except JournalError VerificationVerdict)
    (event : Json) (h : getStr event "event_type" = some "execution") :
    verifyEvent verifyAuthJson verifyCheckpointJson verifyAttestationJson
        event
      = .error (.invalidJson
        "execution events require authorization event for verification; use verify_execution directly") := by
  unfold verifyEvent
  rw [h]
  rfl

/-- C9 (witness): `verify_event` on a concrete execution event JSON. -/
theorem c9_verify_event_rejects_execution_witness :
    verifyEvent (fun _ => .ok .ok) (fun _ => .ok .ok) (fun _ => .ok .ok)
        (.obj [("event_type", .str "execution")])
      = .error (.invalidJson
        "execution events require authorization event for verification; use verify_execution directly") :=
  c9_verify_event_rejects_execution _ _ _ _ rfl

end Northroot

namespace Northroot

/-- Event filters of the store layer
(src/crates/northroot-store/src/filter.rs): the built-ins plus `And`/`Or`
composition over boxed filter lists. -/
inductive EventFilter where
  | eventType (t : String)
  | principal (p : String)
  | timeRange (after before : Option String)
  | eventId (eid : Digest)
  | and (filters : List EventFilter)
  | or (filters : List EventFilter)

mutual

/-- Embedding of `EventFilter::matches` for each built-in filter, and of
the `iter().all` / `iter().any` composition of `AndFilter` / `OrFilter`. -/
def EventFilter.matches : EventFilter → Json → Bool
  | .eventType t, e =>
    match getStr e "event_type" with
    | some s => s == t
    | none => false
  | .principal p, e =>
    match getStr e "principal_id" with
    | some s => s == p
    | none => false
  | .timeRange aft bef, e =>
    match getStr e "occurred_at" with
    | none => false
    | some t =>
      (match aft with
       | some a => decide (¬ (t < a))
       | none => true) &&
      (match bef with
       | some b => decide (¬ (b < t))
       | none => true)
  | .eventId eid, e =>
    match e.get "event_id" with
    | some (.obj fields) =>
      (match (Json.obj fields).get "alg" with
       | some (.str s) =>
         if s = "sha-256" then
           match (Json.obj fields).get "b64" with
           | some (.str b) => decide (DigestAlg.sha256 = eid.alg) && b == eid.b64
           | _ => false
         else false
       | _ => false)
    | _ => false
  | .and fs, e => allMatch fs e
  | .or fs, e => anyMatch fs e

/-- Short-circuit conjunction over a filter list (`iter().all`). -/
def allMatch : List EventFilter → Json → Bool
  | [], _ => true
  | f :: fs, e => f.matches e && allMatch fs e

/-- Short-circuit disjunction over a filter list (`iter().any`). -/
def anyMatch : List EventFilter → Json → Bool
  | [], _ => false
  | f :: fs, e => f.matches e || anyMatch fs e

end

/-- Embedding of `FilteredReader::read_next` over a sequential reader
modelled as the list of its remaining events: skip events until the
filter matches, returning the matching event and the rest. -/
def readNextFiltered (f : EventFilter) : List Json → Option (Json × List Json)
  | [] => none
  | e :: rest => if f.matches e then some (e, rest) else readNextFiltered f rest

theorem readNextFiltered_shorter (f : EventFilter) :
    ∀ (l : List Json) (e : Json) (rest : List Json),
      readNextFiltered f l = some (e, rest) → rest.length < l.length := by
  intro l
  induction l with
  | nil => intro e rest h; simp [readNextFiltered] at h
  | cons x xs ih =>
    intro e rest h
    unfold readNextFiltered at h
    by_cases hm : f.matches x = true
    · rw [if_pos hm] at h
      obtain ⟨he, hr⟩ := Prod.mk.injEq .. ▸ Option.some_inj.mp h
      subst hr
      simp
    · rw [if_neg hm] at h
      have := ih e rest h
      simp
      omega

/-- Repeated `read_next` on a filtered reader until it returns `None`:
the full sequence of events the filtered reader yields. -/
def drainFiltered (f : EventFilter) (events : List Json) : List Json :=
  match h : readNextFiltered f events with
  | none => []
  | some (e, rest) => e :: drainFiltered f rest
termination_by events.length
decreasing_by exact readNextFiltered_shorter f events e rest h

end Northroot

namespace Northroot

theorem drainFiltered_none {f : EventFilter} {events : List Json}
    (h : readNextFiltered f events = none) : drainFiltered f events = [] := by
  rw [drainFiltered]
  split
  · rfl
  · rename_i e rest hr
    rw [h] at hr
    cases hr

theorem drainFiltered_some {f : EventFilter} {events : List Json} {e : Json}
    {rest : List Json} (h : readNextFiltered f events = some (e, rest)) :
    drainFiltered f events = e :: drainFiltered f rest := by
  rw [drainFiltered]
  split
  · rename_i hnone
    rw [h] at hnone
    cases hnone
  · rename_i e2 rest2 hr
    rw [h] at hr
    have he := Option.some_inj.mp hr
    rw [Prod.mk.injEq] at he
    rw [he.1, he.2]

/-- C10: an `AndFilter` with an empty filter list matches every event and
an `OrFilter` with an empty list matches none; consequently a filtered
reader over the empty `AndFilter` yields exactly the underlying events,
and over the empty `OrFilter` its first `read_next` already returns
`None` and it yields no events at all. -/
theorem c10_empty_and_or_filters :
    (∀ e : Json, (EventFilter.and []).matches e = true)
    ∧ (∀ e : Json, (EventFilter.or []).matches e = false)
    ∧ (∀ events : List Json,
        drainFiltered (EventFilter.and []) events = events)
    ∧ (∀ events : List Json,
        readNextFiltered (EventFilter.or []) events = none)
    ∧ (∀ events : List Json,
        drainFiltered (EventFilter.or []) events = []) := by
  have hor : ∀ events : List Json,
      readNextFiltered (EventFilter.or []) events = none := by
    intro events
    induction events with
    | nil => rfl
    | cons e rest ih =>
      unfold readNextFiltered
      rw [if_neg (by simp [EventFilter.matches, anyMatch]), ih]
  refine ⟨fun e => rfl, fun e => rfl, ?_, hor, ?_⟩
  · intro events
    induction events with
    | nil => exact drainFiltered_none rfl
    | cons e rest ih =>
      have hr : readNextFiltered (EventFilter.and []) (e :: rest)
          = some (e, rest) := by
        unfold readNextFiltered
        rw [if_pos (by rfl)]
      rw [drainFiltered_some hr, ih]
  · intro events
    exact drainFiltered_none (hor events)

end Northroot

namespace Northroot

mutual

/-- Embedding of `stringify_numbers`
(src/crates/northroot-core/src/event_id.rs, lines 59-77): every JSON
number in the tree becomes its decimal string. -/
def stringifyNumbers : Json → Json
  | .null => .null
  | .bool b => .bool b
  | .num n => .str (toString n)
  | .str s => .str s
  | .arr items => .arr (stringifyList items)
  | .obj fields => .obj (stringifyFields fields)

/-- Number stringification mapped over an array. -/
def stringifyList : List Json → List Json
  | [] => []
  | j :: js => stringifyNumbers j :: stringifyList js

/-- Number stringification mapped over object fields. -/
def stringifyFields : List (String × Json) → List (String × Json)
  | [] => []
  | (k, v) :: fs => (k, stringifyNumbers v) :: stringifyFields fs

end

/-- Removal of the top-level `event_id` member (`map.remove("event_id")`
in `compute_event_id`); `serde_json` maps have unique keys, so removing
equals filtering the key out. -/
def removeEventId : Json → Json
  | .obj fields => .obj (fields.filter fun p => !(p.1 == "event_id"))
  | j => j

/-- Hex digit character, lowercase. -/
def hexDigitChar (n : Nat) : Char :=
  if n < 10 then Char.ofNat (48 + n) else Char.ofNat (87 + n)

/-- Modelled from the spec: RFC 8785 string escaping of the external
`canonical_json` crate (quotes, backslash, the named control escapes and
`u00XX` for other control characters). -/
def escapeJsonChar (c : Char) : String :=
  if c = '"' then "\\\""
  else if c = '\\' then "\\\\"
  else if c = '\x08' then "\\b"
  else if c = '\x09' then "\\t"
  else if c = '\x0a' then "\\n"
  else if c = '\x0c' then "\\f"
  else if c = '\x0d' then "\\r"
  else if c.toNat < 32 then
    String.mk ['\\', 'u', '0', '0',
      hexDigitChar (c.toNat / 16), hexDigitChar (c.toNat % 16)]
  else String.mk [c]

/-- A JSON string literal with escapes. -/
def renderJsonString (s : String) : String :=
  "\"" ++ String.join (s.data.map escapeJsonChar) ++ "\""

/-- Insertion into a key-sorted field list. -/
def insertByKey (p : String × Json) :
    List (String × Json) → List (String × Json)
  | [] => [p]
  | q :: qs => if p.1 ≤ q.1 then p :: q :: qs else q :: insertByKey p qs

/-- Sorting object fields by key (strict lexicographic order of code
units, which the canonical form requires). -/
def sortFields (fs : List (String × Json)) : List (String × Json) :=
  fs.foldr insertByKey []

mutual

/-- Recursively sorts every object of a JSON tree by key. -/
def sortTree : Json → Json
  | .null => .null
  | .bool b => .bool b
  | .num n => .num n
  | .str s => .str s
  | .arr items => .arr (sortTreeList items)
  | .obj fields => .obj (sortFields (sortTreeFields fields))

/-- Tree sorting mapped over an array. -/
def sortTreeList : List Json → List Json
  | [] => []
  | j :: js => sortTree j :: sortTreeList js

/-- Tree sorting mapped over object fields. -/
def sortTreeFields : List (String × Json) → List (String × Json)
  | [] => []
  | (k, v) :: fs => (k, sortTree v) :: sortTreeFields fs

end

/-- Comma-joined rendering. -/
def joinComma : List String → String
  | [] => ""
  | [x] => x
  | x :: xs => x ++ "," ++ joinComma xs

mutual

/-- Serialization of a (already key-sorted) JSON tree. -/
def serializeJson : Json → String
  | .null => "null"
  | .bool b => if b then "true" else "false"
  | .num n => toString n
  | .str s => renderJsonString s
  | .arr items => "[" ++ joinComma (serializeList items) ++ "]"
  | .obj fields => "\x7b" ++ joinComma (serializeFields fields) ++ "\x7d"

/-- Serialization mapped over an array. -/
def serializeList : List Json → List String
  | [] => []
  | j :: js => serializeJson j :: serializeList js

/-- Serialization mapped over object fields. -/
def serializeFields : List (String × Json) → List String
  | [] => []
  | (k, v) :: fs =>
    (renderJsonString k ++ ":" ++ serializeJson v) :: serializeFields fs

end

/-- Modelled from the spec: the canonical bytes of a JSON value, as the
external `canonical_json::to_string` call in `Canonicalizer::canonicalize`
produces them — objects with keys in strict lexicographic order, arrays
in order, scalars in minimal form (spec section 4.1). The bytes are the
UTF-8 of the returned string. -/
def canonicalBytes (j : Json) : String :=
  serializeJson (sortTree j)

/-- The event-id domain separator `b"northroot:event:v1\0"`
(src/crates/northroot-core/src/event_id.rs, line 7). -/
def EVENT_DOMAIN_SEPARATOR : String := "northroot:event:v1\x00"

/-- Embedding of `compute_event_id` (event_id.rs, lines 14-42): remove the
top-level `event_id`, stringify all numbers, canonicalize, then hash the
domain separator followed by the canonical bytes. The SHA-256 plus
base64url encoding of the `sha2` and `base64` crates is the `hash`
parameter; the result is a `sha-256` digest. -/
def computeEventId (hash : String → String) (v : Json) : Digest :=
  ⟨.sha256,
    hash (EVENT_DOMAIN_SEPARATOR ++
      canonicalBytes (stringifyNumbers (removeEventId v)))⟩

/-- The JSON form of a digest, `{"alg": "sha-256", "b64": ...}` as
`serde_json::to_value` renders it. -/
def digestJson (d : Digest) : Json :=
  .obj [("alg", .str "sha-256"), ("b64", .str d.b64)]

/-- Map update `fields["event_id"] = v`: replace the binding in place or
append it, as `serde_json` object assignment does. -/
def setKey (k : String) (v : Json) :
    List (String × Json) → List (String × Json)
  | [] => [(k, v)]
  | (k2, v2) :: fs =>
    if k2 == k then (k, v) :: fs else (k2, v2) :: setKey k v fs

/-- Stamping the computed id into an event:
`event["event_id"] = to_value(&digest)`. -/
def stampEventId (d : Digest) : Json → Json
  | .obj fields => .obj (setKey "event_id" (digestJson d) fields)
  | j => j

theorem filter_setKey (v : Json) (fields : List (String × Json)) :
    ((setKey "event_id" v fields).filter fun p => !(p.1 == "event_id"))
      = fields.filter fun p => !(p.1 == "event_id") := by
  induction fields with
  | nil => simp [setKey]
  | cons q fs ih =>
    rcases q with ⟨k2, v2⟩
    by_cases hk : k2 = "event_id"
    · subst hk
      simp [setKey, List.filter_cons]
    · simp [setKey, List.filter_cons, hk, ih]

theorem removeEventId_stamp (d : Digest) (fields : List (String × Json)) :
    removeEventId (stampEventId d (.obj fields))
      = removeEventId (.obj fields) := by
  simp [removeEventId, stampEventId, filter_setKey]

/-- C5: `compute_event_id` hashes the 19-byte domain separator
`northroot:event:v1\0` followed by the canonical bytes of the value with
the top-level `event_id` removed and every number stringified; and
stamping the computed id into the event then recomputing yields the same
id, for every hash function — so verification never fails the id check
on a re-stamped event. -/
theorem c5_event_id_strip_stamp_roundtrip :
    (∀ (hash : String → String) (v : Json),
      computeEventId hash v =
        ⟨.sha256, hash (EVENT_DOMAIN_SEPARATOR ++
          canonicalBytes (stringifyNumbers (removeEventId v)))⟩)
    ∧ EVENT_DOMAIN_SEPARATOR.utf8ByteSize = 19
    ∧ (∀ (hash : String → String) (fields : List (String × Json)),
      computeEventId hash
          (stampEventId (computeEventId hash (.obj fields)) (.obj fields))
        = computeEventId hash (.obj fields)) := by
  refine ⟨fun hash v => rfl, by decide, ?_⟩
  intro hash fields
  unfold computeEventId
  rw [removeEventId_stamp]

end Northroot

namespace Northroot

/-- Journal header bytes (src/crates/northroot-journal/src/frame.rs,
`JournalHeader::to_bytes`): magic `NRJ1`, version `0x0001` little-endian,
zero flags and reserved bytes. -/
def JOURNAL_HEADER : List Nat :=
  [78, 82, 74, 49, 1, 0, 0, 0, 0, 0, 0, 0, 0, 0, 0, 0]

/-- Header size in bytes (frame.rs). -/
def HEADER_SIZE : Nat := 16

/-- Frame header size in bytes (frame.rs). -/
def FRAME_HEADER_SIZE : Nat := 8

/-- Maximum payload size, 16 MiB (frame.rs). -/
def MAX_PAYLOAD_SIZE : Nat := 16 * 1024 * 1024

/-- Frame kind byte for EventJson (frame.rs). -/
def FRAME_KIND_EVENT_JSON : Nat := 1

/-- Little-endian bytes of a `u32`. -/
def u32le (n : Nat) : List Nat :=
  [n % 256, n / 256 % 256, n / 65536 % 256, n / 16777216 % 256]

/-- Decoding of four little-endian bytes into a `u32`. -/
def readU32le (b0 b1 b2 b3 : Nat) : Nat :=
  b0 + 256 * b1 + 65536 * b2 + 16777216 * b3

/-- The bytes a frame occupies on disk: `RecordFrame::to_bytes` (kind,
three reserved zero bytes, little-endian length) followed by the payload,
as `append_raw` writes them; the length field carries
`payload.len() as u32`, hence the modulus. -/
def frameBytes (kind : Nat) (payload : List Nat) : List Nat :=
  kind :: 0 :: 0 :: 0 :: (u32le (payload.length % 2 ^ 32) ++ payload)

/-- Embedding of `JournalWriter::append_raw`
(src/crates/northroot-journal/src/writer.rs, lines 189-210): build the
frame (`RecordFrame::new` rejects oversized payloads), then write the
frame header and payload contiguously at the end of the file. -/
def appendRaw (file : List Nat) (kind : Nat) (payload : List Nat) :
    Except JournalError (List Nat) :=
  if payload.length % 2 ^ 32 > MAX_PAYLOAD_SIZE then
    .error (.payloadTooLarge (payload.length % 2 ^ 32) MAX_PAYLOAD_SIZE)
  else .ok (file ++ frameBytes kind payload)

/-- Embedding of repeated `JournalWriter::append_event` over a serialized
event list (`serde_json::to_vec` is the `serialize` parameter), starting
from a file that already carries the header; `finish` only flushes and
changes no bytes. -/
def writeEvents {α : Type} (serialize : α → List Nat) :
    List Nat → List α → Except JournalError (List Nat)
  | file, [] => .ok file
  | file, e :: es =>
    match appendRaw file FRAME_KIND_EVENT_JSON (serialize e) with
    | .error err => .error err
    | .ok file2 => writeEvents serialize file2 es

/-- The concatenated frames of an event list. -/
def concatFrames {α : Type} (serialize : α → List Nat) : List α → List Nat
  | [] => []
  | e :: es => frameBytes FRAME_KIND_EVENT_JSON (serialize e)
      ++ concatFrames serialize es

/-- Read mode of the journal reader (reader.rs). -/
inductive ReadMode where
  | strict
  | permissive
deriving DecidableEq

/-- Byte of a file at an absolute offset. -/
def byteAt (file : List Nat) (i : Nat) : Nat := (file[i]?).getD 0

/-- Embedding of `JournalReader::read_frame`
(src/crates/northroot-journal/src/reader.rs, lines 97-149): `None` at
end of file; a short frame header is `TruncatedFrame` in strict mode and
`None` in permissive mode; nonzero reserved bytes or an oversized length
are `InvalidFrame`; a short payload is again truncation, reported at the
position after the frame header; otherwise the kind, payload, and new
position are returned. -/
def readFrame (mode : ReadMode) (file : List Nat) (pos : Nat) :
    Except JournalError (Option (Nat × List Nat × Nat)) :=
  if pos ≥ file.length then .ok none
  else if file.length < pos + FRAME_HEADER_SIZE then
    match mode with
    | .permissive => .ok none
    | .strict => .error (.truncatedFrame pos)
  else if ¬ (byteAt file (pos + 1) = 0 ∧ byteAt file (pos + 2) = 0 ∧
      byteAt file (pos + 3) = 0) then
    .error (.invalidFrame pos "non-zero reserved bytes")
  else if readU32le (byteAt file (pos + 4)) (byteAt file (pos + 5))
      (byteAt file (pos + 6)) (byteAt file (pos + 7)) > MAX_PAYLOAD_SIZE then
    .error (.invalidFrame pos "payload size exceeds maximum")
  else if file.length < pos + FRAME_HEADER_SIZE +
      readU32le (byteAt file (pos + 4)) (byteAt file (pos + 5))
        (byteAt file (pos + 6)) (byteAt file (pos + 7)) then
    match mode with
    | .permissive => .ok none
    | .strict => .error (.truncatedFrame (pos + FRAME_HEADER_SIZE))
  else
    .ok (some (byteAt file pos,
      (file.drop (pos + FRAME_HEADER_SIZE)).take
        (readU32le (byteAt file (pos + 4)) (byteAt file (pos + 5))
          (byteAt file (pos + 6)) (byteAt file (pos + 7))),
      pos + FRAME_HEADER_SIZE +
        readU32le (byteAt file (pos + 4)) (byteAt file (pos + 5))
          (byteAt file (pos + 6)) (byteAt file (pos + 7))))

/-- Repeated `JournalReader::read_event` (reader.rs, lines 174-192) until
`None` or an error: frames of unknown kind are skipped, `EventJson`
payloads are parsed (`parse` models the UTF-8 check plus
`serde_json::from_str`; a failure is fatal). The result is the list of
events read before the terminal outcome, and that outcome. The `fuel`
argument only drives the recursion; any value at least the number of
frames is enough. -/
def readEvents {α : Type} (parse : List Nat → Option α) (mode : ReadMode)
    (file : List Nat) : Nat → Nat → List α × Except JournalError Unit
  | 0, _ => ([], .error .io)
  | fuel + 1, pos =>
    match readFrame mode file pos with
    | .error e => ([], .error e)
    | .ok none => ([], .ok ())
    | .ok (some (kind, payload, pos2)) =>
      if kind = FRAME_KIND_EVENT_JSON then
        match parse payload with
        | none => ([], .error .jsonParse)
        | some ev =>
          let r := readEvents parse mode file fuel pos2
          (ev :: r.1, r.2)
      else readEvents parse mode file fuel pos2

end Northroot

namespace Northroot

theorem readU32le_u32le (n : Nat) (h : n < 2 ^ 32) :
    readU32le (n % 256) (n / 256 % 256) (n / 65536 % 256)
      (n / 16777216 % 256) = n := by
  unfold readU32le
  omega

theorem frameBytes_length (kind : Nat) (payload : List Nat) :
    (frameBytes kind payload).length = 8 + payload.length := by
  simp [frameBytes, u32le]
  omega

theorem byteAt_shift (P X : List Nat) (i : Nat) :
    byteAt (P ++ X) (P.length + i) = byteAt X i := by
  unfold byteAt
  rw [List.getElem?_append_right (Nat.le_add_right _ _)]
  have he : P.length + i - P.length = i := by omega
  rw [he]

/-- Reading at the start of a complete frame yields its kind, payload, and
the position after it, whatever follows. -/
theorem readFrame_full (mode : ReadMode) (P payload R : List Nat)
    (kind : Nat) (hlen : payload.length ≤ MAX_PAYLOAD_SIZE) :
    readFrame mode (P ++ frameBytes kind payload ++ R) P.length
      = .ok (some (kind, payload,
          P.length + FRAME_HEADER_SIZE + payload.length)) := by
  have hmax : MAX_PAYLOAD_SIZE = 16 * 1024 * 1024 := rfl
  have hmod : payload.length % 2 ^ 32 = payload.length :=
    Nat.mod_eq_of_lt (by omega)
  have hassoc : P ++ frameBytes kind payload ++ R
      = P ++ (frameBytes kind payload ++ R) := List.append_assoc ..
  have key : ∀ i : Nat, byteAt (P ++ frameBytes kind payload ++ R)
      (P.length + i) = byteAt (frameBytes kind payload ++ R) i := by
    intro i
    rw [hassoc]
    exact byteAt_shift ..
  have hflen : (frameBytes kind payload).length = 8 + payload.length :=
    frameBytes_length ..
  have hlen2 : (P ++ frameBytes kind payload ++ R).length
      = P.length + (8 + payload.length) + R.length := by
    simp [List.length_append, hflen]
    omega
  have hb0 : byteAt (frameBytes kind payload ++ R) 0 = kind := rfl
  have hb1 : byteAt (frameBytes kind payload ++ R) 1 = 0 := rfl
  have hb2 : byteAt (frameBytes kind payload ++ R) 2 = 0 := rfl
  have hb3 : byteAt (frameBytes kind payload ++ R) 3 = 0 := rfl
  have hb4 : byteAt (frameBytes kind payload ++ R) 4
      = payload.length % 2 ^ 32 % 256 := by
    simp [byteAt, frameBytes, u32le]
  have hb5 : byteAt (frameBytes kind payload ++ R) 5
      = payload.length % 2 ^ 32 / 256 % 256 := by
    simp [byteAt, frameBytes, u32le]
  have hb6 : byteAt (frameBytes kind payload ++ R) 6
      = payload.length % 2 ^ 32 / 65536 % 256 := by
    simp [byteAt, frameBytes, u32le]
  have hb7 : byteAt (frameBytes kind payload ++ R) 7
      = payload.length % 2 ^ 32 / 16777216 % 256 := by
    simp [byteAt, frameBytes, u32le]
  have hlenfield : readU32le
      (byteAt (P ++ frameBytes kind payload ++ R) (P.length + 4))
      (byteAt (P ++ frameBytes kind payload ++ R) (P.length + 5))
      (byteAt (P ++ frameBytes kind payload ++ R) (P.length + 6))
      (byteAt (P ++ frameBytes kind payload ++ R) (P.length + 7))
        = payload.length := by
    rw [key 4, key 5, key 6, key 7, hb4, hb5, hb6, hb7, hmod]
    exact readU32le_u32le _ (by omega)
  unfold readFrame
  rw [if_neg (by omega)]
  rw [if_neg (by unfold FRAME_HEADER_SIZE; omega)]
  rw [if_neg (by
    push_neg
    refine ⟨?_, ?_, ?_⟩
    · rw [key 1, hb1]
    · rw [key 2, hb2]
    · rw [key 3, hb3])]
  rw [if_neg (by rw [hlenfield]; omega)]
  rw [if_neg (by rw [hlenfield]; unfold FRAME_HEADER_SIZE; omega)]
  rw [hlenfield]
  have hkind : byteAt (P ++ frameBytes kind payload ++ R) P.length = kind := by
    have := key 0
    rw [Nat.add_zero] at this
    rw [this, hb0]
  rw [hkind]
  have hdrop : (P ++ frameBytes kind payload ++ R).drop
      (P.length + FRAME_HEADER_SIZE) = payload ++ R := by
    have hsplit : P ++ frameBytes kind payload ++ R
        = (P ++ (kind :: 0 :: 0 :: 0 :: u32le (payload.length % 2 ^ 32)))
          ++ (payload ++ R) := by
      simp [frameBytes, List.append_assoc]
    rw [hsplit]
    have hlA : (P ++ (kind :: 0 :: 0 :: 0 ::
        u32le (payload.length % 2 ^ 32))).length
        = P.length + FRAME_HEADER_SIZE := by
      simp [u32le, FRAME_HEADER_SIZE]
    rw [← hlA]
    exact List.drop_left ..
  rw [hdrop]
  rw [List.take_left ..]

theorem readFrame_eof (mode : ReadMode) (file : List Nat) (pos : Nat)
    (h : file.length ≤ pos) :
    readFrame mode file pos = .ok none := by
  unfold readFrame
  rw [if_pos (by omega)]

theorem byteAt_take (X : List Nat) (t i : Nat) (h : i < t) :
    byteAt (X.take t) i = byteAt X i := by
  unfold byteAt
  rw [List.getElem?_take]
  rw [if_pos h]

/-- A file ending inside a frame header: `TruncatedFrame` at the frame
position in strict mode, `None` in permissive mode. -/
theorem readFrame_short_header (file : List Nat) (pos : Nat)
    (h1 : pos < file.length) (h2 : file.length < pos + FRAME_HEADER_SIZE) :
    readFrame .strict file pos = .error (.truncatedFrame pos) ∧
    readFrame .permissive file pos = .ok none := by
  constructor <;>
    (unfold readFrame; rw [if_neg (by omega), if_pos (by omega)])

/-- A file ending inside a frame payload (the header is complete but fewer
than the announced number of payload bytes follow): `TruncatedFrame` at
the position after the frame header in strict mode, `None` in permissive
mode. -/
theorem readFrame_short_payload (P payload : List Nat) (kind t : Nat)
    (hmax : payload.length ≤ MAX_PAYLOAD_SIZE)
    (ht1 : 8 ≤ t) (ht2 : t < 8 + payload.length) :
    readFrame .strict (P ++ (frameBytes kind payload).take t) P.length
      = .error (.truncatedFrame (P.length + FRAME_HEADER_SIZE)) ∧
    readFrame .permissive (P ++ (frameBytes kind payload).take t) P.length
      = .ok none := by
  have hmax2 : MAX_PAYLOAD_SIZE = 16 * 1024 * 1024 := rfl
  have hmod : payload.length % 2 ^ 32 = payload.length :=
    Nat.mod_eq_of_lt (by omega)
  have hfl : (P ++ (frameBytes kind payload).take t).length
      = P.length + t := by
    simp [frameBytes_length]
    omega
  have key : ∀ i : Nat, i < t →
      byteAt (P ++ (frameBytes kind payload).take t) (P.length + i)
        = byteAt (frameBytes kind payload) i := by
    intro i hi
    rw [byteAt_shift, byteAt_take _ _ _ hi]
  have hb1 : byteAt (frameBytes kind payload) 1 = 0 := rfl
  have hb2 : byteAt (frameBytes kind payload) 2 = 0 := rfl
  have hb3 : byteAt (frameBytes kind payload) 3 = 0 := rfl
  have hb4 : byteAt (frameBytes kind payload) 4
      = payload.length % 2 ^ 32 % 256 := by
    simp [byteAt, frameBytes, u32le]
  have hb5 : byteAt (frameBytes kind payload) 5
      = payload.length % 2 ^ 32 / 256 % 256 := by
    simp [byteAt, frameBytes, u32le]
  have hb6 : byteAt (frameBytes kind payload) 6
      = payload.length % 2 ^ 32 / 65536 % 256 := by
    simp [byteAt, frameBytes, u32le]
  have hb7 : byteAt (frameBytes kind payload) 7
      = payload.length % 2 ^ 32 / 16777216 % 256 := by
    simp [byteAt, frameBytes, u32le]
  have hlenfield : readU32le
      (byteAt (P ++ (frameBytes kind payload).take t) (P.length + 4))
      (byteAt (P ++ (frameBytes kind payload).take t) (P.length + 5))
      (byteAt (P ++ (frameBytes kind payload).take t) (P.length + 6))
      (byteAt (P ++ (frameBytes kind payload).take t) (P.length + 7))
        = payload.length := by
    rw [key 4 (by omega), key 5 (by omega), key 6 (by omega),
      key 7 (by omega), hb4, hb5, hb6, hb7, hmod]
    exact readU32le_u32le _ (by omega)
  constructor <;>
    (unfold readFrame
     rw [if_neg (by rw [hfl]; omega)]
     rw [if_neg (by rw [hfl]; unfold FRAME_HEADER_SIZE; omega)]
     rw [if_neg (by
       push_neg
       refine ⟨?_, ?_, ?_⟩
       · rw [key 1 (by omega), hb1]
       · rw [key 2 (by omega), hb2]
       · rw [key 3 (by omega), hb3])]
     rw [if_neg (by rw [hlenfield]; omega)]
     rw [if_pos (by
       rw [hlenfield, hfl]; unfold FRAME_HEADER_SIZE; omega)])

theorem concatFrames_append {α : Type} (serialize : α → List Nat)
    (xs ys : List α) :
    concatFrames serialize (xs ++ ys)
      = concatFrames serialize xs ++ concatFrames serialize ys := by
  induction xs with
  | nil => simp [concatFrames]
  | cons x xs ih => simp [concatFrames, ih]

/-- Appending events whose serialized forms fit the payload bound succeeds
and writes exactly the concatenated frames after the existing bytes. -/
theorem writeEvents_ok {α : Type} (serialize : α → List Nat) :
    ∀ (events : List α) (file : List Nat),
    (∀ e ∈ events, (serialize e).length ≤ MAX_PAYLOAD_SIZE) →
    writeEvents serialize file events
      = .ok (file ++ concatFrames serialize events) := by
  intro events
  induction events with
  | nil => intro file _; simp [writeEvents, concatFrames]
  | cons e es ih =>
    intro file hs
    have hmod : (serialize e).length % 2 ^ 32 = (serialize e).length :=
      Nat.mod_eq_of_lt (by
        have := hs e (by simp)
        have hmax : MAX_PAYLOAD_SIZE = 16 * 1024 * 1024 := rfl
        omega)
    have happ : appendRaw file FRAME_KIND_EVENT_JSON (serialize e)
        = .ok (file ++ frameBytes FRAME_KIND_EVENT_JSON (serialize e)) := by
      unfold appendRaw
      rw [if_neg (by rw [hmod]; push_neg; exact hs e (by simp))]
    rw [writeEvents, happ]
    dsimp only
    rw [ih _ (fun x hx => hs x (by simp [hx]))]
    simp [concatFrames, List.append_assoc]

theorem readEvents_eof {α : Type} (parse : List Nat → Option α)
    (mode : ReadMode) (file : List Nat) (fuel pos : Nat)
    (h : file.length ≤ pos) (hf : 0 < fuel) :
    readEvents parse mode file fuel pos = ([], .ok ()) := by
  cases fuel with
  | zero => omega
  | succ n => rw [readEvents, readFrame_eof mode file pos h]

/-- Reading a region of complete frames collects exactly those events and
continues at the position after the region, in either mode. -/
theorem readEvents_frames {α : Type} (parse : List Nat → Option α)
    (serialize : α → List Nat) (mode : ReadMode) (S : List Nat)
    (fuel : Nat) :
    ∀ (events : List α) (P : List Nat),
    (∀ e ∈ events, parse (serialize e) = some e) →
    (∀ e ∈ events, (serialize e).length ≤ MAX_PAYLOAD_SIZE) →
    readEvents parse mode (P ++ concatFrames serialize events ++ S)
        (events.length + fuel) P.length
      = (events ++ (readEvents parse mode
            (P ++ concatFrames serialize events ++ S) fuel
            (P.length + (concatFrames serialize events).length)).1,
         (readEvents parse mode (P ++ concatFrames serialize events ++ S)
            fuel
            (P.length + (concatFrames serialize events).length)).2) := by
  intro events
  induction events with
  | nil => intro P _ _; simp [concatFrames]
  | cons e es ih =>
    intro P hp hs
    have hfile : P ++ concatFrames serialize (e :: es) ++ S
        = P ++ frameBytes FRAME_KIND_EVENT_JSON (serialize e)
          ++ (concatFrames serialize es ++ S) := by
      simp [concatFrames, List.append_assoc]
    have hrf : readFrame mode
        (P ++ concatFrames serialize (e :: es) ++ S) P.length
        = .ok (some (FRAME_KIND_EVENT_JSON, serialize e,
            P.length + FRAME_HEADER_SIZE + (serialize e).length)) := by
      rw [hfile]
      exact readFrame_full mode P (serialize e) _ _ (hs e (by simp))
    have hparse : parse (serialize e) = some e := hp e (by simp)
    have hlen : (e :: es).length + fuel = (es.length + fuel) + 1 := by
      simp
      omega
    rw [hlen, readEvents, hrf]
    dsimp only
    rw [if_pos rfl, hparse]
    have hplen : (P ++ frameBytes FRAME_KIND_EVENT_JSON
        (serialize e)).length
        = P.length + FRAME_HEADER_SIZE + (serialize e).length := by
      simp [frameBytes_length]
      unfold FRAME_HEADER_SIZE
      omega
    have hih := ih (P ++ frameBytes FRAME_KIND_EVENT_JSON (serialize e))
      (fun x hx => hp x (by simp [hx]))
      (fun x hx => hs x (by simp [hx]))
    rw [List.append_assoc, ← hfile, hplen] at hih
    have hpe : P.length + FRAME_HEADER_SIZE + (serialize e).length
        + (concatFrames serialize es).length
        = P.length + (concatFrames serialize (e :: es)).length := by
      have hclen : (concatFrames serialize (e :: es)).length
          = FRAME_HEADER_SIZE + (serialize e).length
            + (concatFrames serialize es).length := by
        simp [concatFrames, frameBytes_length]
        unfold FRAME_HEADER_SIZE
        omega
      rw [hclen]
      omega
    rw [hpe] at hih
    rw [hih]
    simp

/-- One read step inside a truncated final frame: a clean end of file when
the frame was removed entirely (`t = 0` bytes of it remain), otherwise
`None` in permissive mode and `TruncatedFrame` in strict mode, reported at
the frame position when the frame header itself is incomplete and after
the header otherwise. -/
theorem readEvents_truncated {α : Type} (parse : List Nat → Option α)
    (mode : ReadMode) (P payload : List Nat) (kind t : Nat)
    (hmax : payload.length ≤ MAX_PAYLOAD_SIZE)
    (ht : t < FRAME_HEADER_SIZE + payload.length) :
    readEvents parse mode (P ++ (frameBytes kind payload).take t) 1 P.length
      = if t = 0 then ([], .ok ())
        else match mode with
          | .permissive => ([], .ok ())
          | .strict => ([], .error (.truncatedFrame
              (if t < FRAME_HEADER_SIZE then P.length
               else P.length + FRAME_HEADER_SIZE))) := by
  have hF : FRAME_HEADER_SIZE = 8 := rfl
  have hfl : (P ++ (frameBytes kind payload).take t).length
      = P.length + t := by
    simp [frameBytes_length]
    omega
  by_cases h0 : t = 0
  · rw [if_pos h0]
    exact readEvents_eof parse mode _ 1 P.length (by rw [hfl]; omega)
      (by omega)
  · rw [if_neg h0]
    by_cases h8 : t < FRAME_HEADER_SIZE
    · have hsh := readFrame_short_header
        (P ++ (frameBytes kind payload).take t) P.length
        (by rw [hfl]; omega) (by rw [hfl]; omega)
      cases mode with
      | strict => rw [readEvents, hsh.1, if_pos h8]
      | permissive => rw [readEvents, hsh.2]
    · have hsp := readFrame_short_payload P payload kind t hmax
        (by omega) (by omega)
      cases mode with
      | strict => rw [readEvents, hsp.1, if_neg h8]
      | permissive => rw [readEvents, hsp.2]

/-- A one-byte serializer and its parser, used to instantiate the journal
round-trip and truncation theorems on concrete files. -/
def serB (n : Nat) : List Nat := [n % 256]

/-- Parser inverting `serB` on single-byte payloads. -/
def parseB : List Nat → Option Nat
  | [b] => some b
  | _ => none

/-- C7: writing events e1..en through the writer onto the journal header
and flushing changes no further bytes; a strict sequential reader over the
resulting file, starting after the 16-byte header, returns exactly e1..en
and then a clean end of file, provided each serialized event fits the
16 MiB payload bound and parsing inverts serialization on the written
events. -/
theorem c7_write_read_roundtrip {α : Type} (serialize : α → List Nat)
    (parse : List Nat → Option α) (events : List α)
    (hp : ∀ e ∈ events, parse (serialize e) = some e)
    (hs : ∀ e ∈ events, (serialize e).length ≤ MAX_PAYLOAD_SIZE) :
    writeEvents serialize JOURNAL_HEADER events
      = .ok (JOURNAL_HEADER ++ concatFrames serialize events) ∧
    readEvents parse .strict
      (JOURNAL_HEADER ++ concatFrames serialize events)
      (events.length + 1) HEADER_SIZE = (events, .ok ()) := by
  constructor
  · exact writeEvents_ok serialize events JOURNAL_HEADER hs
  · have hseq := readEvents_frames parse serialize .strict [] 1 events
      JOURNAL_HEADER hp hs
    rw [List.append_nil] at hseq
    have hH : HEADER_SIZE = JOURNAL_HEADER.length := rfl
    rw [hH, hseq]
    rw [readEvents_eof parse .strict _ 1 _ (by simp) (by omega)]
    simp

/-- Closed instance of the C7 round-trip at a concrete two-event journal
with one-byte serialization. -/
theorem c7_write_read_roundtrip_witness :
    (∀ e ∈ [3, 7], parseB (serB e) = some e) ∧
    (∀ e ∈ [3, 7], (serB e).length ≤ MAX_PAYLOAD_SIZE) ∧
    (writeEvents serB JOURNAL_HEADER [3, 7]
        = .ok (JOURNAL_HEADER ++ concatFrames serB [3, 7]) ∧
      readEvents parseB .strict (JOURNAL_HEADER ++ concatFrames serB [3, 7])
        ([3, 7].length + 1) HEADER_SIZE = ([3, 7], .ok ())) :=
  ⟨by decide, by decide,
    c7_write_read_roundtrip serB parseB [3, 7] (by decide) (by decide)⟩

/-- C6 (amended): writing events e1..en followed by a final event and
truncating the file by k trailing bytes, 1 ≤ k ≤ size of the last frame:
the permissive reader always yields exactly e1..en and `None`; the strict
reader yields e1..en followed by a `TruncatedFrame` error when
k < frame size, but when k equals the frame size exactly (the whole last
frame removed, the file ending on a frame boundary) it too ends cleanly
with `None` and reports no error. -/
theorem c6_truncated_tail_reader {α : Type} (serialize : α → List Nat)
    (parse : List Nat → Option α) (events : List α) (lastEv : α) (k : Nat)
    (hp : ∀ e ∈ events, parse (serialize e) = some e)
    (hs : ∀ e ∈ events, (serialize e).length ≤ MAX_PAYLOAD_SIZE)
    (hl : (serialize lastEv).length ≤ MAX_PAYLOAD_SIZE)
    (hk1 : 1 ≤ k)
    (hk2 : k ≤ FRAME_HEADER_SIZE + (serialize lastEv).length) :
    writeEvents serialize JOURNAL_HEADER (events ++ [lastEv])
      = .ok (JOURNAL_HEADER ++ concatFrames serialize (events ++ [lastEv]))
      ∧
    readEvents parse .permissive
      ((JOURNAL_HEADER ++ concatFrames serialize (events ++ [lastEv])).take
        ((JOURNAL_HEADER
          ++ concatFrames serialize (events ++ [lastEv])).length - k))
      (events.length + 1) HEADER_SIZE = (events, .ok ()) ∧
    (k < FRAME_HEADER_SIZE + (serialize lastEv).length →
      ∃ off, readEvents parse .strict
        ((JOURNAL_HEADER
            ++ concatFrames serialize (events ++ [lastEv])).take
          ((JOURNAL_HEADER
            ++ concatFrames serialize (events ++ [lastEv])).length - k))
        (events.length + 1) HEADER_SIZE
          = (events, .error (.truncatedFrame off))) ∧
    (k = FRAME_HEADER_SIZE + (serialize lastEv).length →
      readEvents parse .strict
        ((JOURNAL_HEADER
            ++ concatFrames serialize (events ++ [lastEv])).take
          ((JOURNAL_HEADER
            ++ concatFrames serialize (events ++ [lastEv])).length - k))
        (events.length + 1) HEADER_SIZE = (events, .ok ())) := by
  have hF : FRAME_HEADER_SIZE = 8 := rfl
  have hH : HEADER_SIZE = JOURNAL_HEADER.length := rfl
  have hcf : concatFrames serialize (events ++ [lastEv])
      = concatFrames serialize events
        ++ frameBytes FRAME_KIND_EVENT_JSON (serialize lastEv) := by
    rw [concatFrames_append]
    simp [concatFrames]
  have hflen : (frameBytes FRAME_KIND_EVENT_JSON
      (serialize lastEv)).length = 8 + (serialize lastEv).length :=
    frameBytes_length ..
  have htake : (JOURNAL_HEADER
        ++ concatFrames serialize (events ++ [lastEv])).take
      ((JOURNAL_HEADER
        ++ concatFrames serialize (events ++ [lastEv])).length - k)
      = (JOURNAL_HEADER ++ concatFrames serialize events)
        ++ (frameBytes FRAME_KIND_EVENT_JSON (serialize lastEv)).take
          (8 + (serialize lastEv).length - k) := by
    rw [hcf, ← List.append_assoc]
    have h1 : (JOURNAL_HEADER ++ concatFrames serialize events
          ++ frameBytes FRAME_KIND_EVENT_JSON (serialize lastEv)).length - k
        = (JOURNAL_HEADER ++ concatFrames serialize events).length
          + (8 + (serialize lastEv).length - k) := by
      simp [hflen]
      omega
    rw [h1, List.take_append]
  have ht : 8 + (serialize lastEv).length - k
      < FRAME_HEADER_SIZE + (serialize lastEv).length := by omega
  have hPlen : (JOURNAL_HEADER ++ concatFrames serialize events).length
      = JOURNAL_HEADER.length + (concatFrames serialize events).length := by
    simp
  have htruncP := readEvents_truncated parse .permissive
    (JOURNAL_HEADER ++ concatFrames serialize events) (serialize lastEv)
    FRAME_KIND_EVENT_JSON (8 + (serialize lastEv).length - k) hl ht
  have htruncS := readEvents_truncated parse .strict
    (JOURNAL_HEADER ++ concatFrames serialize events) (serialize lastEv)
    FRAME_KIND_EVENT_JSON (8 + (serialize lastEv).length - k) hl ht
  rw [hPlen] at htruncP htruncS
  have hframesP := readEvents_frames parse serialize .permissive
    ((frameBytes FRAME_KIND_EVENT_JSON (serialize lastEv)).take
      (8 + (serialize lastEv).length - k)) 1 events JOURNAL_HEADER hp hs
  have hframesS := readEvents_frames parse serialize .strict
    ((frameBytes FRAME_KIND_EVENT_JSON (serialize lastEv)).take
      (8 + (serialize lastEv).length - k)) 1 events JOURNAL_HEADER hp hs
  refine ⟨?_, ?_, ?_, ?_⟩
  · refine writeEvents_ok serialize (events ++ [lastEv]) JOURNAL_HEADER ?_
    intro x hx
    rcases List.mem_append.mp hx with h | h
    · exact hs x h
    · rw [List.mem_singleton.mp h]
      exact hl
  · rw [htake, hH, hframesP, htruncP]
    by_cases h0 : 8 + (serialize lastEv).length - k = 0
    · simp [h0]
    · simp [h0]
  · intro hklt
    refine ⟨if 8 + (serialize lastEv).length - k < FRAME_HEADER_SIZE
        then JOURNAL_HEADER.length + (concatFrames serialize events).length
        else JOURNAL_HEADER.length
          + (concatFrames serialize events).length
          + FRAME_HEADER_SIZE, ?_⟩
    rw [htake, hH, hframesS, htruncS]
    have h0 : ¬ (8 + (serialize lastEv).length - k = 0) := by omega
    simp [h0]
  · intro hkeq
    rw [htake, hH, hframesS, htruncS]
    have h0 : 8 + (serialize lastEv).length - k = 0 := by omega
    simp [h0]

/-- Closed instance of the amended C6 theorem: one leading event, a final
one-byte event, and four trailing bytes removed. -/
theorem c6_truncated_tail_reader_witness :
    (∀ e ∈ [3], parseB (serB e) = some e) ∧
    (∀ e ∈ [3], (serB e).length ≤ MAX_PAYLOAD_SIZE) ∧
    (serB 7).length ≤ MAX_PAYLOAD_SIZE ∧
    1 ≤ 4 ∧ 4 ≤ FRAME_HEADER_SIZE + (serB 7).length ∧
    (writeEvents serB JOURNAL_HEADER ([3] ++ [7])
        = .ok (JOURNAL_HEADER ++ concatFrames serB ([3] ++ [7])) ∧
      readEvents parseB .permissive
        ((JOURNAL_HEADER ++ concatFrames serB ([3] ++ [7])).take
          ((JOURNAL_HEADER ++ concatFrames serB ([3] ++ [7])).length - 4))
        ([3].length + 1) HEADER_SIZE = ([3], .ok ()) ∧
      (4 < FRAME_HEADER_SIZE + (serB 7).length →
        ∃ off, readEvents parseB .strict
          ((JOURNAL_HEADER ++ concatFrames serB ([3] ++ [7])).take
            ((JOURNAL_HEADER ++ concatFrames serB ([3] ++ [7])).length - 4))
          ([3].length + 1) HEADER_SIZE
            = ([3], .error (.truncatedFrame off))) ∧
      (4 = FRAME_HEADER_SIZE + (serB 7).length →
        readEvents parseB .strict
          ((JOURNAL_HEADER ++ concatFrames serB ([3] ++ [7])).take
            ((JOURNAL_HEADER ++ concatFrames serB ([3] ++ [7])).length - 4))
          ([3].length + 1) HEADER_SIZE = ([3], .ok ()))) :=
  ⟨by decide, by decide, by decide, by decide, by decide,
    c6_truncated_tail_reader serB parseB [3] 7 4 (by decide) (by decide)
      (by decide) (by decide) (by decide)⟩

/-- C6 counterexample: truncating by k = 9 bytes, the exact size of the
last frame (within the claimed range 1 ≤ k ≤ frame size + 1), leaves a
file ending on a frame boundary: the strict reader returns the prefix and
then a clean `None`, not a `TruncatedFrame` error. -/
theorem c6_exact_frame_truncation_counterexample :
    writeEvents serB JOURNAL_HEADER [3, 7]
      = .ok (JOURNAL_HEADER ++ concatFrames serB [3, 7]) ∧
    (frameBytes FRAME_KIND_EVENT_JSON (serB 7)).length = 9 ∧
    readEvents parseB .strict
      ((JOURNAL_HEADER ++ concatFrames serB [3, 7]).take
        ((JOURNAL_HEADER ++ concatFrames serB [3, 7]).length - 9))
      2 HEADER_SIZE = ([3], .ok ()) := by
  refine ⟨?_, ?_, ?_⟩ <;> rfl

end Northroot
